import Mathlib

/-!
# CarND MPC project: the telemetry handler of `src/main.cpp`

A shallow embedding of `main.cpp` and the properties proved about it.

Conventions of the embedding.

* `double` is an arbitrary linearly ordered field `α` with exact arithmetic
  (`ℚ` for evaluation, `ℝ` for the geometric statements).  The library
  functions `cos`, `sin`, `atan` are parameters; `pow(x, i)` is `x ^ i`.
* `std::string` is `List Char`, `std::vector<double>` and `Eigen::VectorXd`
  are `List α`, `Eigen::MatrixXd` is `MatrixXd α`.
* `size_t` arithmetic is taken modulo `2 ^ 64`, an `unsigned int` counter wraps
  modulo `2 ^ 32`, and an `int` counter that would pass `INT_MAX` is undefined
  behaviour.
* Every access `v[i]` is checked in the model: an access outside the container
  is `Outcome.undefined`.  The `assert`s are compiled in; a failed `assert` and an
  uncaught exception are `Outcome.aborted`.
* Loops run on fuel; each loop is given more fuel than it has iterations
  whenever its counter does not wrap.
* `A.householderQr().solve(y)` (Eigen) and `mpc.Solve` (`MPC.h`) are code outside
  `main.cpp` and are parameters of the model.  Both return a vector and have no
  way to report a failure.
-/

namespace MPCProject

/-! ## Outcomes of a run -/

/-- Result of running a piece of the program. -/
inductive Outcome (σ : Type) where
  | done (s : σ)
  | aborted
  | undefined
  | outOfFuel
  deriving DecidableEq

namespace Outcome

/-- Sequencing: the second part runs only when the first one completed. -/
def bind {σ τ : Type} (o : Outcome σ) (f : σ → Outcome τ) : Outcome τ :=
  match o with
  | done s => f s
  | aborted => aborted
  | undefined => undefined
  | outOfFuel => outOfFuel

/-- Checked read `v[i]`. -/
def read {β : Type} (v : List β) (i : Nat) : Outcome β :=
  match v[i]? with
  | some b => done b
  | none => undefined

/-- Checked write `v[i] = b`. -/
def write {β : Type} (v : List β) (i : Nat) (b : β) : Outcome (List β) :=
  if i < v.length then done (v.set i b) else undefined

end Outcome

open Outcome

/-- Modulus of `size_t` arithmetic. -/
def SIZE_MOD : Nat := 2 ^ 64

/-- Modulus of `unsigned int` arithmetic. -/
def UINT_MOD : Nat := 2 ^ 32

/-- Largest `int`. -/
def INT_MAX : Nat := 2 ^ 31 - 1

/-- Value `std::string::npos`, that is `size_t(-1)`. -/
def npos : Nat := SIZE_MOD - 1

/-! ## Strings: `hasData` -/

/-- Search of `s.find(pat)`: `i` is the position of the head of the text. -/
def findFrom (pat : List Char) : List Char → Nat → Nat
  | [], i => if pat = [] then i else npos
  | c :: cs, i => if pat.isPrefixOf (c :: cs) then i else findFrom pat cs (i + 1)

/-- Position of the first occurrence of `pat` in `s`, or `npos`: `s.find(pat)`. -/
def find (s pat : List Char) : Nat := findFrom pat s 0

/-- Search of `s.find_first_of(chars)`. -/
def findFirstOfFrom (chars : List Char) : List Char → Nat → Nat
  | [], _ => npos
  | c :: cs, i => if c ∈ chars then i else findFirstOfFrom chars cs (i + 1)

/-- Position of the first character of `s` that is one of `chars`, or `npos`:
`s.find_first_of(chars)`. -/
def find_first_of (s chars : List Char) : Nat := findFirstOfFrom chars s 0

/-- Search of `s.rfind(pat)`: `last` is the last occurrence seen so far. -/
def rfindFrom (pat : List Char) : List Char → Nat → Nat → Nat
  | [], i, last => if pat = [] then i else last
  | c :: cs, i, last =>
    rfindFrom pat cs (i + 1) (if pat.isPrefixOf (c :: cs) then i else last)

/-- Position of the last occurrence of `pat` in `s`, or `npos`: `s.rfind(pat)`. -/
def rfind (s pat : List Char) : Nat := rfindFrom pat s 0 npos

/-- Substring `s.substr(pos, count)`: throws `std::out_of_range` when `pos` is
past the end, else the characters from `pos` on, at most `count` of them. -/
def substr (s : List Char) (pos count : Nat) : Outcome (List Char) :=
  if s.length < pos then aborted else done ((s.drop pos).take count)

/-- Function `hasData` of `main.cpp`. -/
def hasData (s : List Char) : Outcome (List Char) :=
  let found_null := find s ['n', 'u', 'l', 'l']
  let b1 := find_first_of s ['[']
  let b2 := rfind s ['}', ']']
  if found_null ≠ npos then
    done []
  else if b1 ≠ npos ∧ b2 ≠ npos then
    substr s b1 (((b2 + SIZE_MOD - b1) % SIZE_MOD + 2) % SIZE_MOD)
  else
    done []

/-! ## Loops -/

/-- Loop `for (i = i0; i < bound; i = next i) body` run on fuel: `body` and the
counter update `next` may fail, and the failure ends the run. -/
def forLoop {σ : Type} (bound : Nat) (next : Nat → Outcome Nat)
    (body : Nat → σ → Outcome σ) : Nat → Nat → σ → Outcome σ
  | 0, _, _ => outOfFuel
  | fuel + 1, i, s =>
    if i < bound then
      (body i s).bind fun s' => (next i).bind fun i' => forLoop bound next body fuel i' s'
    else done s

/-- Update `i = i + step` of an `unsigned int` counter. -/
def uintAdd (step : Nat) (i : Nat) : Outcome Nat := done ((i + step) % UINT_MOD)

/-- Update `i++` of an `int` counter: overflow is undefined behaviour. -/
def intIncr (i : Nat) : Outcome Nat := if i + 1 ≤ INT_MAX then done (i + 1) else undefined

/-! ## `polyeval` and `polyfit` -/

section Numeric

variable {α μ : Type} [LinearOrderedField α]

/-- Function `polyeval` of `main.cpp`. -/
def polyeval (coeffs : List α) (x : α) : Outcome α :=
  forLoop coeffs.length intIncr
    (fun i result => (read coeffs i).bind fun c => done (result + c * x ^ i))
    (coeffs.length + 1) 0 0

/-- Dense matrix `Eigen::MatrixXd`: its dimensions and its entries. -/
structure MatrixXd (α : Type) where
  rows : Nat
  cols : Nat
  coef : Nat → Nat → α

/-- Checked read `A(i, j)`. -/
def MatrixXd.get (A : MatrixXd α) (i j : Nat) : Outcome α :=
  if i < A.rows ∧ j < A.cols then done (A.coef i j) else undefined

/-- Checked write `A(i, j) = v`. -/
def MatrixXd.set (A : MatrixXd α) (i j : Nat) (v : α) : Outcome (MatrixXd α) :=
  if i < A.rows ∧ j < A.cols then
    done { A with coef := fun a b => if a = i ∧ b = j then v else A.coef a b }
  else undefined

/-- Product `(A * c)(j)`, the `j`-th entry of the matrix-vector product. -/
def MatrixXd.mulVecAt (A : MatrixXd α) (c : List α) (j : Nat) : α :=
  ∑ i ∈ Finset.range A.cols, A.coef j i * c.getD i 0

/-- Design matrix built by `polyfit` (lines 51 to 61): `garbage` is the content of
the freshly allocated matrix. -/
def designMatrix (garbage : Nat → Nat → α) (xvals : List α) (order : Nat) :
    Outcome (MatrixXd α) :=
  if INT_MAX < order + 1 then undefined
  else
    (forLoop xvals.length intIncr (fun i A => A.set i 0 1) (xvals.length + 1) 0
        (⟨xvals.length, order + 1, garbage⟩ : MatrixXd α)).bind fun A1 =>
      forLoop xvals.length intIncr
        (fun j A =>
          forLoop order intIncr
            (fun i A' =>
              (A'.get j i).bind fun a => (read xvals j).bind fun x => A'.set j (i + 1) (a * x))
            (order + 1) 0 A)
        (xvals.length + 1) 0 A1

/-- Function `polyfit` of `main.cpp`; `qrSolve A y` is `A.householderQr().solve(y)`. -/
def polyfit (qrSolve : MatrixXd α → List α → List α) (garbage : Nat → Nat → α)
    (xvals yvals : List α) (order : Int) : Outcome (List α) :=
  if xvals.length ≠ yvals.length then aborted
  else if ¬ (1 ≤ order ∧ order ≤ (xvals.length : Int) - 1) then aborted
  else (designMatrix garbage xvals order.toNat).bind fun A => done (qrSolve A yvals)

/-! ## The telemetry handler of `main` -/

/-- Constant `M_PI` of `math.h`: the `double` nearest to π. -/
def M_PI : α := 884279719003555 / 281474976710656

/-- Function `pi` of `main.cpp`. -/
def pi : α := M_PI

/-- Function `deg2rad` of `main.cpp`. -/
def deg2rad (x : α) : α := x * pi / 180

/-- Function `rad2deg` of `main.cpp`. -/
def rad2deg (x : α) : α := x * 180 / pi

/-- Code outside `main.cpp` that the handler calls: the `math.h` functions, the
Eigen QR solve, `MPC::Solve` acting on the controller object of type `μ`, and the
content of freshly allocated Eigen storage. -/
structure Env (α μ : Type) where
  cos : α → α
  sin : α → α
  atan : α → α
  qrSolve : MatrixXd α → List α → List α
  Solve : μ → List α → List α → α → α → μ × List α
  garbageVec : Nat → α
  garbageMat : Nat → Nat → α

/-- Telemetry event fields read by the handler: `j[1]["x"]`, `["y"]`, `["psi"]`,
`["speed"]`, `["ptsx"]`, `["ptsy"]`. -/
structure Telemetry (α : Type) where
  x : α
  y : α
  psi : α
  speed : α
  ptsx : List α
  ptsy : List α
  deriving DecidableEq

/-- Variables of `main` that hold a value from one message to the next.  The other
captured variables (`px`, `py`, `psi`, `v`, `dx`, `dy`, `cte`, `epsi`, `steer_value`,
`throttle_value`, `ptsx`, `ptsy`) are assigned in every cycle before they are read
and are local values of the model.  `old_coeffs` is a variable of `main` that the
handler does not capture. -/
structure Vars (α μ : Type) where
  prev_delta : α
  prev_accel : α
  prev_psi : α
  integrator_gain : α
  state : List α
  old_coeffs : List α
  waypoint_vector_size : Nat
  ptsx_eigen : List α
  ptsy_eigen : List α
  mpc : μ
  deriving DecidableEq

/-- Arguments of one call `mpc.Solve(state, coeffs, prev_delta, prev_accel)`. -/
structure SolveCall (α : Type) where
  state : List α
  coeffs : List α
  prev_delta : α
  prev_accel : α
  deriving DecidableEq

/-- What one telemetry cycle produces: the variables of `main` after it, the call
made to `mpc.Solve` and its result, and the fields of the `steer` message. -/
structure Output (α μ : Type) where
  vars : Vars α μ
  call : SolveCall α
  solution_vec : List α
  steering_angle : α
  throttle : α
  mpc_x : List α
  mpc_y : List α
  next_x : List α
  next_y : List α
  deriving DecidableEq

/-- Variables of `main` when the handler is installed (lines 72 to 110). -/
def init (E : Env α μ) (mpc : μ) : Vars α μ where
  prev_delta := 0
  prev_accel := 0
  prev_psi := 0
  integrator_gain := 0
  state := (List.range 6).map E.garbageVec
  old_coeffs := [0, 0, 0, 0]
  waypoint_vector_size := 6
  ptsx_eigen := (List.range 6).map E.garbageVec
  ptsy_eigen := (List.range 6).map E.garbageVec
  mpc := mpc

/-- Call `v.resize(n)` of an `Eigen::VectorXd`: nothing happens when the size is
already `n`, else the storage is reallocated and holds garbage. -/
def resize (garbage : Nat → α) (v : List α) (n : Nat) : List α :=
  if v.length = n then v else (List.range n).map garbage

/-- Body of the waypoint loop (lines 159 to 163) for one waypoint `(x, y)`. -/
def toVehicle (cos sin : α → α) (px py psi x y : α) : α × α :=
  let dx := x - px
  let dy := y - py
  (dx * cos psi + dy * sin psi, -dx * sin psi + dy * cos psi)

/-- Lines 139 to 164 of the handler: the buffers are resized when the waypoint
count changed, then filled by the transform loop. -/
def transformWaypoints (E : Env α μ) (vars : Vars α μ) (t : Telemetry α) :
    Outcome (Vars α μ) :=
  let ptsx := t.ptsx
  let ptsy := t.ptsy
  let vars1 : Vars α μ :=
    if vars.waypoint_vector_size ≠ ptsx.length then
      { vars with
        waypoint_vector_size := ptsx.length
        ptsx_eigen := resize E.garbageVec vars.ptsx_eigen ptsx.length
        ptsy_eigen := resize E.garbageVec vars.ptsy_eigen ptsx.length }
    else vars
  (forLoop ptsx.length (uintAdd 1)
      (fun iter_ind (b : List α × List α) =>
        (read ptsx iter_ind).bind fun x =>
        (read ptsy iter_ind).bind fun y =>
        (write b.1 iter_ind (toVehicle E.cos E.sin t.x t.y t.psi x y).1).bind fun bx =>
        (write b.2 iter_ind (toVehicle E.cos E.sin t.x t.y t.psi x y).2).bind fun bY =>
        done (bx, bY))
      (ptsx.length + 1) 0 (vars1.ptsx_eigen, vars1.ptsy_eigen)).bind fun b =>
    done { vars1 with ptsx_eigen := b.1, ptsy_eigen := b.2 }

/-- Lines 132 to 204 of the handler, up to the arguments of `mpc.Solve`. -/
def prepare (E : Env α μ) (vars : Vars α μ) (t : Telemetry α) :
    Outcome (Vars α μ × SolveCall α) :=
  let v := t.speed * (44704 / 100000)
  (transformWaypoints E vars t).bind fun vars1 =>
  (polyfit E.qrSolve E.garbageMat vars1.ptsx_eigen vars1.ptsy_eigen 3).bind fun coeffs =>
  (polyeval coeffs 0).bind fun cte =>
  (read coeffs 1).bind fun c1 =>
  let epsi := -E.atan c1
  let integrator_gain := vars1.integrator_gain - 1 / 1000 * cte * (100 / 1000)
  (write vars1.state 0 0).bind fun s0 =>
  (write s0 1 0).bind fun s1 =>
  (write s1 2 0).bind fun s2 =>
  (write s2 3 v).bind fun s3 =>
  (write s3 4 cte).bind fun s4 =>
  (write s4 5 epsi).bind fun s5 =>
  done ({ vars1 with integrator_gain := integrator_gain, state := s5 },
        { state := s5, coeffs := coeffs,
          prev_delta := vars1.prev_delta, prev_accel := vars1.prev_accel })

/-- Lines 227 to 239 of the handler: the predicted trajectory is read off the
solution vector. -/
def extractTrajectory {β : Type} (solution_vec : List β) : Outcome (List β × List β) :=
  let soln_vec_xysize := (solution_vec.length + SIZE_MOD - 2) % SIZE_MOD
  forLoop soln_vec_xysize (uintAdd 2)
    (fun iter_idx (m : List β × List β) =>
      (read solution_vec ((2 + iter_idx) % UINT_MOD)).bind fun x =>
      (read solution_vec ((2 + iter_idx + 1) % UINT_MOD)).bind fun y =>
      done (m.1 ++ [x], m.2 ++ [y]))
    (soln_vec_xysize + 1) 0 ([], [])

/-- Lines 248 to 260 of the handler: the reference line shown by the simulator. -/
def referenceLine (coeffs : List α) : Outcome (List α × List α) :=
  forLoop 100 (uintAdd 1)
    (fun i (n : List α × List α) =>
      (polyeval coeffs (i : α)).bind fun y => done (n.1 ++ [(i : α)], n.2 ++ [y]))
    101 0 ([], [])

/-- Lines 204 to 263 of the handler: the call of `mpc.Solve`, the actuation
message and the update of the previous command. -/
def finish (E : Env α μ) (vars : Vars α μ) (call : SolveCall α) (t : Telemetry α) :
    Outcome (Output α μ) :=
  let r := E.Solve vars.mpc call.state call.coeffs call.prev_delta call.prev_accel
  let solution_vec := r.2
  (read solution_vec 0).bind fun sv0 =>
  (read solution_vec 1).bind fun sv1 =>
  let steer_value := sv0 + vars.integrator_gain
  let throttle_value := sv1
  (extractTrajectory solution_vec).bind fun m =>
  (referenceLine call.coeffs).bind fun n =>
  done { vars := { vars with
                   mpc := r.1
                   prev_delta := steer_value
                   prev_accel := throttle_value
                   prev_psi := t.psi }
         call := call
         solution_vec := solution_vec
         steering_angle := steer_value / deg2rad 25
         throttle := throttle_value
         mpc_x := m.1
         mpc_y := m.2
         next_x := n.1
         next_y := n.2 }

/-- The handler on one telemetry event (lines 129 to 279). -/
def onTelemetry (E : Env α μ) (vars : Vars α μ) (t : Telemetry α) : Outcome (Output α μ) :=
  (prepare E vars t).bind fun p => finish E p.1 p.2 t

/-- The handler on a sequence of telemetry events: the variables of `main` after
the last one. -/
def run (E : Env α μ) : Vars α μ → List (Telemetry α) → Outcome (Vars α μ)
  | vars, [] => done vars
  | vars, t :: ts => (onTelemetry E vars t).bind fun out => run E out.vars ts

/-- Invariant of the loops of `polyfit`: the dimensions of the matrix, its first
column on the rows below `r0`, and the powers of the abscissas on the rows below `r`. -/
def FitInv (xvals : List α) (order r0 r : Nat) (A : MatrixXd α) : Prop :=
  A.rows = xvals.length ∧ A.cols = order + 1 ∧
    (∀ k, k < r0 → A.coef k 0 = 1) ∧
    (∀ k, k < r → ∀ i, i ≤ order → A.coef k i = xvals.getD k 0 ^ i)

/-- Sum of the squared residuals of `A * c = y`: `‖A * c - y‖²`. -/
def residual (A : MatrixXd α) (y c : List α) : α :=
  ∑ j ∈ Finset.range A.rows, (A.mulVecAt c j - y.getD j 0) ^ 2

/-- Least-squares solution of `A * c = y`: a vector with one entry for each column
of `A` whose squared residual is minimal. -/
def IsLeastSquares (A : MatrixXd α) (y c : List α) : Prop :=
  c.length = A.cols ∧ ∀ c' : List α, c'.length = A.cols → residual A y c ≤ residual A y c'

/-- Sizes of the Eigen vectors of `main`: both waypoint buffers have
`waypoint_vector_size` entries and `state` has six. -/
def SizesOk (vars : Vars α μ) : Prop :=
  vars.ptsx_eigen.length = vars.waypoint_vector_size ∧
  vars.ptsy_eigen.length = vars.waypoint_vector_size ∧
  vars.state.length = 6

/-! ## A sample run over `ℚ` -/

/-- Sample environment over `ℚ` for a car at the origin heading along the x axis
and waypoints on the line `y = -1`: `cos`, `sin` and `atan` are given by their
values at `0`, the only argument they receive there; the QR solve returns the
line `y = -1`, and `mpc.Solve` returns the largest steering angle, full throttle and
two predicted points. -/
def sampleEnv : Env ℚ Unit where
  cos := fun _ => 1
  sin := fun _ => 0
  atan := fun _ => 0
  qrSolve := fun _ _ => [-1, 0, 0, 0]
  Solve := fun m _ _ _ _ => (m, [deg2rad 25, 1, 1, -1, 2, -1])
  garbageVec := fun _ => 0
  garbageMat := fun _ _ => 0

/-- Sample telemetry: the car at the origin, four waypoints on the line `y = -1`. -/
def sampleTelemetry : Telemetry ℚ where
  x := 0
  y := 0
  psi := 0
  speed := 10
  ptsx := [0, 1, 2, 3]
  ptsy := [-1, -1, -1, -1]

/-- Sample telemetry with two waypoints. -/
def twoWaypoints : Telemetry ℚ where
  x := 1
  y := 2
  psi := 0
  speed := 10
  ptsx := [1, 2]
  ptsy := [2, 4]

/-- Sample telemetry with three waypoints. -/
def threeWaypoints : Telemetry ℚ where
  x := 0
  y := 0
  psi := 0
  speed := 10
  ptsx := [0, 1, 2]
  ptsy := [-1, -1, -1]

/-- Variables of `main` after the cycle on `sampleTelemetry` from the initial ones. -/
def afterSample : Vars ℚ Unit where
  prev_delta := deg2rad 25 + 1 / 10000
  prev_accel := 1
  prev_psi := 0
  integrator_gain := 1 / 10000
  state := [0, 0, 0, 10 * (44704 / 100000), -1, 0]
  old_coeffs := [0, 0, 0, 0]
  waypoint_vector_size := 4
  ptsx_eigen := [0, 1, 2, 3]
  ptsy_eigen := [-1, -1, -1, -1]
  mpc := ()

/-- What `prepare` computes on `sampleTelemetry` from the initial variables. -/
def samplePrepared : Vars ℚ Unit × SolveCall ℚ :=
  ({ prev_delta := 0
     prev_accel := 0
     prev_psi := 0
     integrator_gain := 1 / 10000
     state := [0, 0, 0, 10 * (44704 / 100000), -1, 0]
     old_coeffs := [0, 0, 0, 0]
     waypoint_vector_size := 4
     ptsx_eigen := [0, 1, 2, 3]
     ptsy_eigen := [-1, -1, -1, -1]
     mpc := () },
   { state := [0, 0, 0, 10 * (44704 / 100000), -1, 0]
     coeffs := [-1, 0, 0, 0]
     prev_delta := 0
     prev_accel := 0 })

end Numeric

/-! ## Basic facts about outcomes and loops -/

@[simp] theorem bind_done {σ τ : Type} (a : σ) (f : σ → Outcome τ) :
    (done a).bind f = f a := rfl

theorem bind_eq_done {σ τ : Type} {o : Outcome σ} {f : σ → Outcome τ} {b : τ}
    (h : o.bind f = done b) : ∃ a, o = done a ∧ f a = done b := by
  cases o with
  | done a => exact ⟨a, rfl, h⟩
  | aborted => cases h
  | undefined => cases h
  | outOfFuel => cases h

theorem read_eq_done {β : Type} {v : List β} {i : Nat} {b : β} :
    Outcome.read v i = done b ↔ v[i]? = some b := by
  unfold Outcome.read
  cases h : v[i]? with
  | none => simp
  | some c => simp

theorem read_of_lt {β : Type} (v : List β) (i : Nat) (h : i < v.length) :
    Outcome.read v i = done v[i] := by
  rw [read_eq_done]; exact List.getElem?_eq_getElem h

theorem write_of_lt {β : Type} (v : List β) (i : Nat) (b : β) (h : i < v.length) :
    Outcome.write v i b = done (v.set i b) := by
  unfold Outcome.write; rw [if_pos h]

theorem write_eq_done {β : Type} {v w : List β} {i : Nat} {b : β}
    (h : Outcome.write v i b = done w) : i < v.length ∧ w = v.set i b := by
  unfold Outcome.write at h
  split at h
  · rename_i hlt; injection h with h; exact ⟨hlt, h.symm⟩
  · cases h

/-- Loop rule: a loop whose counter advances by `step` without wrapping, whose body
completes and keeps the invariant, completes with the invariant at the first
counter value that is not below the bound. -/
theorem forLoop_inv {σ : Type} (bound step : Nat) (next : Nat → Outcome Nat)
    (body : Nat → σ → Outcome σ) (Inv : Nat → σ → Prop)
    (hnext : ∀ i, i < bound → next i = done (i + step))
    (hbody : ∀ i s, i < bound → Inv i s → ∃ s', body i s = done s' ∧ Inv (i + step) s') :
    ∀ fuel i s, i < bound + step → bound + step ≤ i + step * fuel → Inv i s →
      ∃ i' s', forLoop bound next body fuel i s = done s' ∧ bound ≤ i' ∧ i' < bound + step
        ∧ Inv i' s' := by
  intro fuel
  induction fuel with
  | zero => intro i s h1 h2 _; omega
  | succ fuel ih =>
    intro i s h1 h2 hinv
    unfold forLoop
    by_cases hlt : i < bound
    · obtain ⟨s', hs', hinv'⟩ := hbody i s hlt hinv
      rw [if_pos hlt, hs', bind_done, hnext i hlt, bind_done]
      refine ih (i + step) s' (by omega) ?_ hinv'
      have : step * (fuel + 1) = step * fuel + step := by ring
      omega
    · rw [if_neg hlt]
      exact ⟨i, s, rfl, by omega, h1, hinv⟩

/-- Loop rule for completed runs: an invariant kept by every completed step holds
when the loop has completed, at a counter value that is not below the bound. -/
theorem forLoop_completed {σ : Type} (bound : Nat) (next : Nat → Outcome Nat)
    (body : Nat → σ → Outcome σ) (Inv : Nat → σ → Prop)
    (hstep : ∀ i s s' i', i < bound → Inv i s → body i s = done s' → next i = done i' →
      Inv i' s') :
    ∀ fuel i s s', Inv i s → forLoop bound next body fuel i s = done s' →
      ∃ i', ¬ i' < bound ∧ Inv i' s' := by
  intro fuel
  induction fuel with
  | zero => intro i s s' _ h; cases h
  | succ fuel ih =>
    intro i s s' hinv h
    unfold forLoop at h
    by_cases hlt : i < bound
    · rw [if_pos hlt] at h
      obtain ⟨s1, hs1, h⟩ := bind_eq_done h
      obtain ⟨i1, hi1, h⟩ := bind_eq_done h
      exact ih i1 s1 s' (hstep i s s1 i1 hlt hinv hs1 hi1) h
    · rw [if_neg hlt] at h
      injection h with h
      subst h
      exact ⟨i, hlt, hinv⟩

theorem intIncr_eq_done {i i' : Nat} (h : intIncr i = done i') : i' = i + 1 := by
  unfold intIncr at h
  split at h
  · injection h with h; exact h.symm
  · cases h

theorem intIncr_of_lt {i bound : Nat} (hb : bound ≤ INT_MAX) (h : i < bound) :
    intIncr i = done (i + 1) := by
  unfold intIncr; rw [if_pos (by omega)]

theorem uintAdd_of_le {i step : Nat} (h : i + step < UINT_MOD) :
    uintAdd step i = done (i + step) := by
  unfold uintAdd; rw [Nat.mod_eq_of_lt h]

section NumericFacts

variable {α μ : Type} [LinearOrderedField α]

/-- Value of `polyeval`: the sum of `coeffs[i] * x ^ i`. -/
theorem polyeval_eq (coeffs : List α) (x : α) (h : coeffs.length ≤ INT_MAX) :
    polyeval coeffs x = done (∑ i ∈ Finset.range coeffs.length, coeffs.getD i 0 * x ^ i) := by
  obtain ⟨i', r, hr, h1, h2, hi, hinv⟩ := forLoop_inv coeffs.length 1 intIncr
    (fun i result => (Outcome.read coeffs i).bind fun c => done (result + c * x ^ i))
    (fun i r => i ≤ coeffs.length ∧ r = ∑ k ∈ Finset.range i, coeffs.getD k 0 * x ^ k)
    (fun i hi => intIncr_of_lt h hi)
    (fun i s hi hinv => by
      obtain ⟨h1, h2⟩ := hinv
      refine ⟨s + coeffs[i] * x ^ i, ?_, by omega, ?_⟩
      · show (Outcome.read coeffs i).bind _ = _
        rw [read_of_lt coeffs i hi, bind_done]
      · rw [Finset.sum_range_succ, h2, List.getD_eq_getElem _ _ hi])
    (coeffs.length + 1) 0 0 (by omega) (by omega) ⟨by omega, by simp⟩
  have : i' = coeffs.length := by omega
  subst this
  unfold polyeval
  rw [hr, hinv]

/-- Value of a completed `polyeval`. -/
theorem polyeval_value (coeffs : List α) (x r : α) (h : polyeval coeffs x = done r) :
    r = ∑ i ∈ Finset.range coeffs.length, coeffs.getD i 0 * x ^ i := by
  obtain ⟨i', hi', hle, hr⟩ := forLoop_completed coeffs.length intIncr
    (fun i result => (Outcome.read coeffs i).bind fun c => done (result + c * x ^ i))
    (fun i r => i ≤ coeffs.length ∧ r = ∑ k ∈ Finset.range i, coeffs.getD k 0 * x ^ k)
    (fun i s s' i' hi hinv hb hn => by
      obtain ⟨c, hc, hb⟩ := bind_eq_done hb
      injection hb with hb
      have hi1 := intIncr_eq_done hn
      subst hi1
      refine ⟨by omega, ?_⟩
      rw [Finset.sum_range_succ, ← hinv.2, ← hb, List.getD_eq_getElem?_getD,
        read_eq_done.mp hc, Option.getD_some])
    (coeffs.length + 1) 0 0 r ⟨by omega, by simp⟩ h
  have : i' = coeffs.length := by omega
  subst this
  exact hr

/-- At the origin `polyeval` is the constant coefficient. -/
theorem polyeval_zero (c0 : α) (rest : List α) (r : α)
    (h : polyeval (c0 :: rest) 0 = done r) : r = c0 := by
  rw [polyeval_value _ _ _ h, Finset.sum_eq_single 0]
  · simp
  · intro i _ hi
    rw [zero_pow hi, mul_zero]
  · intro h0
    exact absurd (Finset.mem_range.mpr (by simp)) h0

theorem designMatrix_row (xvals : List α) (order j : Nat) (A : MatrixXd α)
    (ho : order ≤ INT_MAX) (hj : j < xvals.length)
    (hA : FitInv xvals order xvals.length j A) :
    ∃ A', forLoop order intIncr
        (fun i A' => (A'.get j i).bind fun a =>
          (Outcome.read xvals j).bind fun x => A'.set j (i + 1) (a * x))
        (order + 1) 0 A = done A' ∧ FitInv xvals order xvals.length (j + 1) A' := by
  obtain ⟨i', A', hr, h1, h2, hinv⟩ := forLoop_inv order 1 intIncr
    (fun i A' => (A'.get j i).bind fun a =>
      (Outcome.read xvals j).bind fun x => A'.set j (i + 1) (a * x))
    (fun i B => i ≤ order ∧ FitInv xvals order xvals.length j B ∧
      ∀ m, m ≤ i → B.coef j m = xvals.getD j 0 ^ m)
    (fun i hi => intIncr_of_lt ho hi)
    (fun i B hi hinv => by
      obtain ⟨_, ⟨hrows, hcols, hcol0, hpow⟩, hrow⟩ := hinv
      refine ⟨{ B with coef := fun a b => if a = j ∧ b = i + 1 then B.coef j i * xvals[j]
                                          else B.coef a b }, ?_, by omega, ⟨hrows, hcols, ?_, ?_⟩, ?_⟩
      · show (B.get j i).bind _ = _
        unfold MatrixXd.get MatrixXd.set
        rw [if_pos ⟨by omega, by omega⟩, bind_done, read_of_lt xvals j hj, bind_done,
          if_pos ⟨by omega, by omega⟩]
      · intro k hk
        have : ¬ (k = j ∧ 0 = i + 1) := by omega
        dsimp only
        rw [if_neg this]
        exact hcol0 k hk
      · intro k hk m hm
        have : ¬ (k = j ∧ m = i + 1) := by omega
        dsimp only
        rw [if_neg this]
        exact hpow k hk m hm
      · intro m hm
        dsimp only
        by_cases hmi : m = i + 1
        · subst hmi
          rw [if_pos ⟨rfl, rfl⟩, hrow i le_rfl, List.getD_eq_getElem _ _ hj, pow_succ]
        · have : ¬ (j = j ∧ m = i + 1) := by omega
          rw [if_neg this]
          exact hrow m (by omega))
    (order + 1) 0 A (by omega) (by omega)
    ⟨by omega, hA, fun m hm => by
      have : m = 0 := by omega
      subst this
      rw [hA.2.2.1 j hj, pow_zero]⟩
  obtain ⟨_, ⟨hrows, hcols, hcol0, hpow⟩, hrow⟩ := hinv
  have hi' : i' = order := by omega
  subst hi'
  refine ⟨A', hr, hrows, hcols, hcol0, ?_⟩
  intro k hk m hm
  by_cases hkj : k = j
  · subst hkj; exact hrow m hm
  · exact hpow k (by omega) m hm

/-- The matrix built by `polyfit` is the Vandermonde matrix of the abscissas. -/
theorem designMatrix_spec (garbage : Nat → Nat → α) (xvals : List α) (order : Nat)
    (hn : xvals.length ≤ INT_MAX) (ho : order + 1 ≤ INT_MAX) :
    ∃ A, designMatrix garbage xvals order = done A ∧ A.rows = xvals.length ∧
      A.cols = order + 1 ∧
      ∀ j, j < xvals.length → ∀ i, i ≤ order → A.coef j i = xvals.getD j 0 ^ i := by
  obtain ⟨i1, A1, hr1, h11, h12, hinv1⟩ := forLoop_inv xvals.length 1 intIncr
    (fun i (A : MatrixXd α) => A.set i 0 1)
    (fun i B => FitInv xvals order i 0 B)
    (fun i hi => intIncr_of_lt hn hi)
    (fun i B hi hinv => by
      obtain ⟨hrows, hcols, hcol0, _⟩ := hinv
      refine ⟨{ B with coef := fun a b => if a = i ∧ b = 0 then 1 else B.coef a b }, ?_,
        hrows, hcols, ?_, ?_⟩
      · show B.set i 0 1 = _
        unfold MatrixXd.set
        rw [if_pos ⟨by omega, by omega⟩]
      · intro k hk
        dsimp only
        by_cases hki : k = i
        · subst hki; rw [if_pos ⟨rfl, rfl⟩]
        · have : ¬ (k = i ∧ 0 = 0) := by omega
          rw [if_neg this]
          exact hcol0 k (by omega)
      · intro k hk; omega)
    (xvals.length + 1) 0 ⟨xvals.length, order + 1, garbage⟩ (by omega) (by omega)
    ⟨rfl, rfl, fun k hk => by omega, fun k hk => by omega⟩
  have hi1 : i1 = xvals.length := by omega
  subst hi1
  obtain ⟨i2, A2, hr2, h21, h22, hinv2⟩ := forLoop_inv xvals.length 1 intIncr
    (fun j A =>
      forLoop order intIncr
        (fun i A' => (A'.get j i).bind fun a =>
          (Outcome.read xvals j).bind fun x => A'.set j (i + 1) (a * x))
        (order + 1) 0 A)
    (fun j B => FitInv xvals order xvals.length j B)
    (fun i hi => intIncr_of_lt hn hi)
    (fun j B hj hinv => designMatrix_row xvals order j B (by omega) hj hinv)
    (xvals.length + 1) 0 A1 (by omega) (by omega)
    ⟨hinv1.1, hinv1.2.1, hinv1.2.2.1, fun k hk => by omega⟩
  have hi2 : i2 = xvals.length := by omega
  subst hi2
  refine ⟨A2, ?_, hinv2.1, hinv2.2.1, hinv2.2.2.2⟩
  unfold designMatrix
  rw [if_neg (by omega), hr1, bind_done, hr2]

/-- C8: `polyeval c x` is the sum of `c[i] * x ^ i`, lowest degree first (`0` for
an empty `c`); the matrix built by `polyfit` for any `order` is the Vandermonde
matrix `A(j, i) = xvals[j] ^ i`, `i ≤ order`; it is the matrix handed to the QR
solve; and the `j`-th entry of `A * c'` is `polyeval c' xvals[j]` for every `c'` of
length `order + 1`.  Sizes are those that the `int` counters of the loops hold. -/
theorem polyeval_polyfit_same_order (qrSolve : MatrixXd α → List α → List α)
    (garbage : Nat → Nat → α) (c : List α) (x : α) (xvals : List α) (order : Nat)
    (hc : c.length ≤ INT_MAX) (ho : order < INT_MAX)
    (hn : xvals.length ≤ INT_MAX) :
    polyeval c x = done (∑ i ∈ Finset.range c.length, c.getD i 0 * x ^ i) ∧
    ∃ A, designMatrix garbage xvals order = done A ∧
      A.rows = xvals.length ∧ A.cols = order + 1 ∧
      (∀ j, j < xvals.length → ∀ i, i ≤ order → A.coef j i = xvals.getD j 0 ^ i) ∧
      (∀ yvals r, polyfit qrSolve garbage xvals yvals (order : Int) = done r →
        r = qrSolve A yvals) ∧
      (∀ c' : List α, c'.length = order + 1 → ∀ j, j < xvals.length →
        polyeval c' (xvals.getD j 0) = done (A.mulVecAt c' j)) := by
  refine ⟨polyeval_eq c x hc, ?_⟩
  obtain ⟨A, hA, hrows, hcols, hpow⟩ := designMatrix_spec garbage xvals order hn (by omega)
  refine ⟨A, hA, hrows, hcols, hpow, ?_, ?_⟩
  · intro yvals r hr
    unfold polyfit at hr
    split at hr
    · cases hr
    · split at hr
      · cases hr
      · rw [Int.toNat_ofNat, hA, bind_done] at hr
        injection hr with hr
        exact hr.symm
  · intro c' hc' j hj
    rw [polyeval_eq c' _ (by omega), hc']
    unfold MatrixXd.mulVecAt
    rw [hcols]
    congr 1
    refine Finset.sum_congr rfl fun i hi => ?_
    rw [hpow j hj i (by have := Finset.mem_range.mp hi; omega), mul_comm]

/-- Witness of `polyeval_polyfit_same_order`: the abscissas `1, 2`, order `1`. -/
theorem polyeval_polyfit_same_order_witness :
    [(1 : ℚ), 2].length ≤ INT_MAX ∧ 1 < INT_MAX ∧ [(1 : ℚ), 2].length ≤ INT_MAX ∧
    polyeval [(1 : ℚ), 2] 3 = done (∑ i ∈ Finset.range 2, [(1 : ℚ), 2].getD i 0 * 3 ^ i) :=
  ⟨by decide, by decide, by decide,
    (polyeval_polyfit_same_order (fun _ y => y) (fun _ _ => 0) [(1 : ℚ), 2] 3 [(1 : ℚ), 2] 1
      (by decide) (by decide) (by decide)).1⟩

theorem residual_nonneg (A : MatrixXd α) (y c : List α) : 0 ≤ residual A y c :=
  Finset.sum_nonneg fun _ _ => sq_nonneg _

/-- Row `j` of the cubic design matrix applied to four coefficients. -/
theorem mulVecAt_cubic (A : MatrixXd α) (xvals : List α) (hcols : A.cols = 3 + 1)
    (hpow : ∀ j, j < xvals.length → ∀ i, i ≤ 3 → A.coef j i = xvals.getD j 0 ^ i)
    (a0 a1 a2 a3 : α) (j : Nat) (hj : j < xvals.length) :
    A.mulVecAt [a0, a1, a2, a3] j
      = a0 + a1 * xvals.getD j 0 + a2 * xvals.getD j 0 ^ 2 + a3 * xvals.getD j 0 ^ 3 := by
  unfold MatrixXd.mulVecAt
  rw [hcols]
  simp only [Finset.sum_range_succ, Finset.sum_range_zero]
  rw [hpow j hj 0 (by omega), hpow j hj 1 (by omega), hpow j hj 2 (by omega),
    hpow j hj 3 (by omega)]
  simp only [List.getD_cons_zero, List.getD_cons_succ]
  ring

/-- A cubic that vanishes at four distinct points has zero coefficients. -/
theorem cubic_eq_zero (S : Finset α) (hS : 4 ≤ S.card) (d0 d1 d2 d3 : α)
    (h : ∀ x ∈ S, d0 + d1 * x + d2 * x ^ 2 + d3 * x ^ 3 = 0) :
    d0 = 0 ∧ d1 = 0 ∧ d2 = 0 ∧ d3 = 0 := by
  let p : Polynomial α :=
    Polynomial.C d0 + Polynomial.C d1 * Polynomial.X + Polynomial.C d2 * Polynomial.X ^ 2
      + Polynomial.C d3 * Polynomial.X ^ 3
  have hdeg : p.natDegree ≤ 3 := by
    show (Polynomial.C d0 + Polynomial.C d1 * Polynomial.X + Polynomial.C d2 * Polynomial.X ^ 2
      + Polynomial.C d3 * Polynomial.X ^ 3).natDegree ≤ 3
    compute_degree
  have hp : p = 0 := by
    refine Polynomial.eq_zero_of_natDegree_lt_card_of_eval_eq_zero' p S ?_ (by omega)
    intro x hx
    have := h x hx
    simpa [p] using this
  have e0 : p.coeff 0 = d0 := by simp [p]
  have e1 : p.coeff 1 = d1 := by simp [p, Polynomial.coeff_X, Polynomial.coeff_C]
  have e2 : p.coeff 2 = d2 := by simp [p, Polynomial.coeff_X, Polynomial.coeff_C]
  have e3 : p.coeff 3 = d3 := by simp [p, Polynomial.coeff_X, Polynomial.coeff_C]
  rw [hp] at e0 e1 e2 e3
  simp only [Polynomial.coeff_zero] at e0 e1 e2 e3
  exact ⟨e0.symm, e1.symm, e2.symm, e3.symm⟩

/-- When both assertions of `polyfit` hold, it returns what the QR solve returns
for the design matrix, whatever the rank of that matrix. -/
theorem polyfit_done (qrSolve : MatrixXd α → List α → List α) (garbage : Nat → Nat → α)
    (xvals yvals : List α) (order : Nat) (hlen : xvals.length = yvals.length)
    (h1 : 1 ≤ order) (h2 : order + 1 ≤ xvals.length) (hsize : xvals.length ≤ INT_MAX) :
    ∃ A, designMatrix garbage xvals order = done A ∧
      polyfit qrSolve garbage xvals yvals (order : Int) = done (qrSolve A yvals) := by
  obtain ⟨A, hA, _⟩ := designMatrix_spec garbage xvals order hsize (by omega)
  refine ⟨A, hA, ?_⟩
  unfold polyfit
  rw [if_neg (by omega), if_neg (by push_neg; omega), Int.toNat_ofNat, hA, bind_done]

/-- When an assertion of `polyfit` fails, the program is aborted. -/
theorem polyfit_aborted (qrSolve : MatrixXd α → List α → List α) (garbage : Nat → Nat → α)
    (xvals yvals : List α) (order : Nat)
    (h : xvals.length ≠ yvals.length ∨ order = 0 ∨ xvals.length < order + 1) :
    polyfit qrSolve garbage xvals yvals (order : Int) = aborted := by
  unfold polyfit
  by_cases hlen : xvals.length = yvals.length
  · rw [if_neg (by omega), if_pos (by omega)]
  · rw [if_pos hlen]

/-- At least four distinct points on the graph of a function have at least four
distinct abscissas. -/
theorem four_abscissas (xvals yvals : List α) (f : α → α)
    (hlen : xvals.length = yvals.length)
    (hgen : ∀ j, j < xvals.length → yvals.getD j 0 = f (xvals.getD j 0))
    (hpts : 4 ≤ (xvals.zip yvals).toFinset.card) : 4 ≤ xvals.toFinset.card := by
  refine le_trans hpts (Finset.card_le_card_of_injOn Prod.fst ?_ ?_)
  · intro q hq
    have hq' : q ∈ xvals.zip yvals := List.mem_toFinset.mp hq
    exact List.mem_toFinset.mpr (List.of_mem_zip hq').1
  · have key : ∀ q ∈ xvals.zip yvals, q.2 = f q.1 := by
      intro q hq
      obtain ⟨j, hj, hjq⟩ := List.getElem_of_mem hq
      have hjx : j < xvals.length := by
        have := @List.length_zip _ _ xvals yvals; omega
      have hjy : j < yvals.length := by omega
      rw [List.getElem_zip] at hjq
      have h := hgen j hjx
      rw [List.getD_eq_getElem _ _ hjx, List.getD_eq_getElem _ _ hjy] at h
      rw [← hjq]
      exact h
    intro q hq q' hq' hfst
    have h1 := key q (List.mem_toFinset.mp hq)
    have h2 := key q' (List.mem_toFinset.mp hq')
    exact Prod.ext hfst (by rw [h1, h2, hfst])

/-- The coefficients that generate the ordinates leave no residual. -/
theorem residual_generating (A : MatrixXd α) (xvals yvals : List α) (c0 c1 c2 c3 : α)
    (hrows : A.rows = xvals.length) (hcols : A.cols = 3 + 1)
    (hpow : ∀ j, j < xvals.length → ∀ i, i ≤ 3 → A.coef j i = xvals.getD j 0 ^ i)
    (hgen : ∀ j, j < xvals.length → yvals.getD j 0 =
      c0 + c1 * xvals.getD j 0 + c2 * xvals.getD j 0 ^ 2 + c3 * xvals.getD j 0 ^ 3) :
    residual A yvals [c0, c1, c2, c3] = 0 := by
  unfold residual
  refine Finset.sum_eq_zero fun j hj => ?_
  have hj' : j < xvals.length := by
    have := Finset.mem_range.mp hj; omega
  rw [mulVecAt_cubic A xvals hcols hpow c0 c1 c2 c3 j hj', hgen j hj', sub_self]
  exact zero_pow (by omega)

/-- The coefficients that generate the ordinates are a least-squares solution of
the system of the matrix that `polyfit` builds. -/
theorem isLeastSquares_generating (garbage : Nat → Nat → α) (xvals yvals : List α)
    (c0 c1 c2 c3 : α) (hsize : xvals.length ≤ INT_MAX)
    (hgen : ∀ j, j < xvals.length → yvals.getD j 0 =
      c0 + c1 * xvals.getD j 0 + c2 * xvals.getD j 0 ^ 2 + c3 * xvals.getD j 0 ^ 3)
    (A : MatrixXd α) (hA : designMatrix garbage xvals 3 = done A) :
    IsLeastSquares A yvals [c0, c1, c2, c3] := by
  obtain ⟨A', hA', hrows, hcols, hpow⟩ :=
    designMatrix_spec garbage xvals 3 hsize (by unfold INT_MAX; omega)
  rw [hA] at hA'
  injection hA' with hA'
  subst hA'
  refine ⟨by rw [hcols]; rfl, fun c' _ => ?_⟩
  rw [residual_generating A xvals yvals c0 c1 c2 c3 hrows hcols hpow hgen]
  exact residual_nonneg _ _ _

/-- C2: for a set of at least four points generated exactly from a cubic
`c0 + c1 x + c2 x² + c3 x³` (the pairs `(xvals[j], yvals[j])` form a set of at least
four points), `polyfit(xvals, yvals, 3)`, with the QR solve read as an exact
least-squares solution of the design-matrix system, returns `[c0, c1, c2, c3]`,
lowest degree first.  The number of pairs is one that the `int` loop counters
hold. -/
theorem polyfit_recovers_cubic (qrSolve : MatrixXd α → List α → List α)
    (garbage : Nat → Nat → α) (xvals yvals : List α) (c0 c1 c2 c3 : α)
    (hlen : xvals.length = yvals.length) (hsize : xvals.length ≤ INT_MAX)
    (hpts : 4 ≤ (xvals.zip yvals).toFinset.card)
    (hgen : ∀ j, j < xvals.length → yvals.getD j 0 =
      c0 + c1 * xvals.getD j 0 + c2 * xvals.getD j 0 ^ 2 + c3 * xvals.getD j 0 ^ 3)
    (hls : ∀ A, designMatrix garbage xvals 3 = done A →
      IsLeastSquares A yvals (qrSolve A yvals)) :
    polyfit qrSolve garbage xvals yvals 3 = done [c0, c1, c2, c3] := by
  have hS := four_abscissas xvals yvals (fun x => c0 + c1 * x + c2 * x ^ 2 + c3 * x ^ 3)
    hlen hgen hpts
  have hn : 4 ≤ xvals.length := le_trans hS (List.toFinset_card_le xvals)
  obtain ⟨A, hA, hrows, hcols, hpow⟩ :=
    designMatrix_spec garbage xvals 3 hsize (by unfold INT_MAX; omega)
  obtain ⟨hrlen, hmin⟩ := hls A hA
  have hzero := residual_generating A xvals yvals c0 c1 c2 c3 hrows hcols hpow hgen
  have hres : residual A yvals (qrSolve A yvals) = 0 :=
    le_antisymm (hzero ▸ hmin [c0, c1, c2, c3] (by rw [hcols]; rfl)) (residual_nonneg _ _ _)
  -- the solution has four entries
  obtain ⟨r0, r1, r2, r3, hr⟩ : ∃ r0 r1 r2 r3, qrSolve A yvals = [r0, r1, r2, r3] := by
    rw [hcols] at hrlen
    match h : qrSolve A yvals, hrlen with
    | [a, b, c, d], _ => exact ⟨a, b, c, d, rfl⟩
  rw [hr] at hres
  -- each residual vanishes
  have hfit : ∀ x ∈ xvals.toFinset,
      (r0 - c0) + (r1 - c1) * x + (r2 - c2) * x ^ 2 + (r3 - c3) * x ^ 3 = 0 := by
    intro x hx
    obtain ⟨j, hj, hjx⟩ := List.getElem_of_mem (List.mem_toFinset.mp hx)
    unfold residual at hres
    have h0 := (Finset.sum_eq_zero_iff_of_nonneg (fun _ _ => sq_nonneg _)).mp hres j
      (Finset.mem_range.mpr (by omega))
    rw [mulVecAt_cubic A xvals hcols hpow r0 r1 r2 r3 j hj, hgen j hj,
      List.getD_eq_getElem _ _ hj, hjx] at h0
    have h1 := pow_eq_zero_iff (two_ne_zero) |>.mp h0
    linear_combination h1
  obtain ⟨e0, e1, e2, e3⟩ := cubic_eq_zero xvals.toFinset hS _ _ _ _ hfit
  unfold polyfit
  rw [if_neg (by omega), if_neg (by push_neg; omega)]
  show (designMatrix garbage xvals 3).bind _ = _
  rw [hA, bind_done, hr, sub_eq_zero.mp e0, sub_eq_zero.mp e1, sub_eq_zero.mp e2,
    sub_eq_zero.mp e3]

/-- Witness of `polyfit_recovers_cubic`: four points of the line `1 + x`. -/
theorem polyfit_recovers_cubic_witness :
    4 ≤ ([(0 : ℚ), 1, 2, 3].zip [(1 : ℚ), 2, 3, 4]).toFinset.card ∧
    polyfit (fun _ _ => [(1 : ℚ), 1, 0, 0]) (fun _ _ => 0) [0, 1, 2, 3] [1, 2, 3, 4] 3
      = done [1, 1, 0, 0] :=
  have hgen : ∀ j, j < [(0 : ℚ), 1, 2, 3].length → [(1 : ℚ), 2, 3, 4].getD j 0 =
      1 + 1 * [(0 : ℚ), 1, 2, 3].getD j 0 + 0 * [(0 : ℚ), 1, 2, 3].getD j 0 ^ 2
        + 0 * [(0 : ℚ), 1, 2, 3].getD j 0 ^ 3 := by
    intro j hj
    have hj4 : j < 4 := hj
    interval_cases j <;> norm_num
  ⟨by decide,
    polyfit_recovers_cubic (fun _ _ => [(1 : ℚ), 1, 0, 0]) (fun _ _ => 0)
      [0, 1, 2, 3] [1, 2, 3, 4] 1 1 0 0 rfl (by decide) (by decide) hgen
      (fun A hA => isLeastSquares_generating (fun _ _ => 0) [0, 1, 2, 3] [1, 2, 3, 4]
        1 1 0 0 (by decide) hgen A hA)⟩

end NumericFacts

/-! ## Buffers and the trajectory extraction -/

theorem length_resize {β : Type} (garbage : Nat → β) (v : List β) (n : Nat) :
    (resize garbage v n).length = n := by
  unfold resize
  split
  · assumption
  · simp

theorem state_writes {β : Type} (s : List β) (hs : s.length = 6) (a0 a1 a2 a3 a4 a5 : β) :
    (((((s.set 0 a0).set 1 a1).set 2 a2).set 3 a3).set 4 a4).set 5 a5
      = [a0, a1, a2, a3, a4, a5] := by
  match s, hs with
  | [_, _, _, _, _, _], _ => rfl

/-- The extraction loop on a solution vector of even length between `2` and
`2 ^ 32`: every read is in range and point `k` is `(sol[2 + 2k], sol[3 + 2k])`. -/
theorem extractTrajectory_spec {β : Type} (sol : List β) (h2 : 2 ≤ sol.length)
    (heven : sol.length % 2 = 0) (hsize : sol.length ≤ UINT_MOD) :
    ∃ mx my, extractTrajectory sol = done (mx, my) ∧
      mx.length = (sol.length - 2) / 2 ∧ my.length = (sol.length - 2) / 2 ∧
      ∀ k, k < (sol.length - 2) / 2 →
        mx[k]? = sol[2 + 2 * k]? ∧ my[k]? = sol[3 + 2 * k]? := by
  have hU : UINT_MOD = 4294967296 := by unfold UINT_MOD; norm_num
  have hbound : (sol.length + SIZE_MOD - 2) % SIZE_MOD = sol.length - 2 := by
    have hS : SIZE_MOD = 18446744073709551616 := by unfold SIZE_MOD; norm_num
    rw [hS]; omega
  obtain ⟨i', m, hr, h1, h2', hev, hle, hl1, hl2, hinv⟩ :=
    forLoop_inv (sol.length - 2) 2 (uintAdd 2)
    (fun iter_idx (m : List β × List β) =>
      (Outcome.read sol ((2 + iter_idx) % UINT_MOD)).bind fun x =>
      (Outcome.read sol ((2 + iter_idx + 1) % UINT_MOD)).bind fun y =>
      done (m.1 ++ [x], m.2 ++ [y]))
    (fun i m => i % 2 = 0 ∧ i ≤ sol.length - 2 ∧ m.1.length = i / 2 ∧ m.2.length = i / 2 ∧
      ∀ k, k < i / 2 → m.1[k]? = sol[2 + 2 * k]? ∧ m.2[k]? = sol[3 + 2 * k]?)
    (fun i hi => uintAdd_of_le (by omega))
    (fun i m hi hinv => by
      obtain ⟨hev, _, hl1, hl2, hpre⟩ := hinv
      have e1 : (2 + i) % UINT_MOD = 2 + i := Nat.mod_eq_of_lt (by omega)
      have e2 : (2 + i + 1) % UINT_MOD = 2 + i + 1 := Nat.mod_eq_of_lt (by omega)
      have r1 : 2 + i < sol.length := by omega
      have r2 : 2 + i + 1 < sol.length := by omega
      refine ⟨(m.1 ++ [sol[2 + i]], m.2 ++ [sol[2 + i + 1]]), ?_, by omega, by omega,
        by simp [hl1], by simp [hl2], ?_⟩
      · show (Outcome.read sol ((2 + i) % UINT_MOD)).bind _ = _
        rw [e1, e2, read_of_lt sol _ r1, bind_done, read_of_lt sol _ r2, bind_done]
      · intro k hk
        by_cases hki : k < i / 2
        · rw [List.getElem?_append_left (by omega), List.getElem?_append_left (by omega)]
          exact hpre k hki
        · have hk' : k = i / 2 := by omega
          have i1 : 2 + 2 * k = 2 + i := by omega
          have i2 : 3 + 2 * k = 2 + i + 1 := by omega
          rw [List.getElem?_append_right (by omega), List.getElem?_append_right (by omega),
            i1, i2, List.getElem?_eq_getElem r1, List.getElem?_eq_getElem r2, hl1, hl2, hk']
          simp)
    ((sol.length - 2) + 1) 0 ([], []) (by omega) (by omega)
    ⟨by omega, by omega, rfl, rfl, fun k hk => by omega⟩
  have hi' : i' = sol.length - 2 := by omega
  subst hi'
  refine ⟨m.1, m.2, ?_, hl1, hl2, hinv⟩
  unfold extractTrajectory
  simp only [hbound]
  exact hr

/-! ## The waypoint transform -/

section HandlerFacts

variable {α μ : Type} [LinearOrderedField α]

/-- The transform loop fills both buffers with the images of the waypoints. -/
theorem transformLoop_spec (cos sin : α → α) (px py psi : α) (ptsx ptsy bx bY : List α)
    (hlen : ptsx.length = ptsy.length) (hsize : ptsx.length < UINT_MOD)
    (hbx : bx.length = ptsx.length) (hbY : bY.length = ptsx.length) :
    forLoop ptsx.length (uintAdd 1)
      (fun iter_ind (b : List α × List α) =>
        (Outcome.read ptsx iter_ind).bind fun x =>
        (Outcome.read ptsy iter_ind).bind fun y =>
        (Outcome.write b.1 iter_ind (toVehicle cos sin px py psi x y).1).bind fun bx =>
        (Outcome.write b.2 iter_ind (toVehicle cos sin px py psi x y).2).bind fun bY =>
        done (bx, bY))
      (ptsx.length + 1) 0 (bx, bY)
    = done (List.zipWith (fun x y => (toVehicle cos sin px py psi x y).1) ptsx ptsy,
            List.zipWith (fun x y => (toVehicle cos sin px py psi x y).2) ptsx ptsy) := by
  obtain ⟨i', b', hr, h1, h2, hi, hl1, hl2, hinv⟩ := forLoop_inv ptsx.length 1 (uintAdd 1)
    (fun iter_ind (b : List α × List α) =>
      (Outcome.read ptsx iter_ind).bind fun x =>
      (Outcome.read ptsy iter_ind).bind fun y =>
      (Outcome.write b.1 iter_ind (toVehicle cos sin px py psi x y).1).bind fun bx =>
      (Outcome.write b.2 iter_ind (toVehicle cos sin px py psi x y).2).bind fun bY =>
      done (bx, bY))
    (fun i b => i ≤ ptsx.length ∧ b.1.length = ptsx.length ∧ b.2.length = ptsx.length ∧
      ∀ k, k < i →
        b.1[k]? = (List.zipWith (fun x y => (toVehicle cos sin px py psi x y).1) ptsx ptsy)[k]? ∧
        b.2[k]? = (List.zipWith (fun x y => (toVehicle cos sin px py psi x y).2) ptsx ptsy)[k]?)
    (fun i hi => uintAdd_of_le (by omega))
    (fun i b hi hinv => by
      obtain ⟨_, hl1, hl2, hpre⟩ := hinv
      have hiy : i < ptsy.length := by omega
      refine ⟨(b.1.set i (toVehicle cos sin px py psi ptsx[i] ptsy[i]).1,
               b.2.set i (toVehicle cos sin px py psi ptsx[i] ptsy[i]).2), ?_, by omega,
               by simp [hl1], by simp [hl2], ?_⟩
      · show (Outcome.read ptsx i).bind _ = _
        rw [read_of_lt ptsx i hi, bind_done, read_of_lt ptsy i hiy, bind_done,
          write_of_lt _ _ _ (by omega), bind_done, write_of_lt _ _ _ (by omega), bind_done]
      · intro k hk
        by_cases hki : k = i
        · subst hki
          simp [List.getElem?_zipWith, List.getElem?_eq_getElem, hi, hiy, hl1, hl2]
        · have hne : i ≠ k := fun h => hki h.symm
          simp only [List.getElem?_set_ne hne]
          exact hpre k (by omega))
    (ptsx.length + 1) 0 (bx, bY) (by omega) (by omega)
    ⟨by omega, hbx, hbY, fun k hk => by omega⟩
  have hi' : i' = ptsx.length := by omega
  subst hi'
  rw [hr]
  congr 1
  refine Prod.ext ?_ ?_
  · refine List.ext_getElem? fun k => ?_
    by_cases hk : k < ptsx.length
    · exact (hinv k hk).1
    · rw [List.getElem?_eq_none (by omega), List.getElem?_eq_none (by simp; omega)]
  · refine List.ext_getElem? fun k => ?_
    by_cases hk : k < ptsx.length
    · exact (hinv k hk).2
    · rw [List.getElem?_eq_none (by omega), List.getElem?_eq_none (by simp; omega)]

/-- The transform phase on sequences of equal length: both buffers end with one
entry for each waypoint, the image of the waypoint. -/
theorem transformWaypoints_spec (E : Env α μ) (vars : Vars α μ) (t : Telemetry α)
    (hvars : SizesOk vars) (hlen : t.ptsx.length = t.ptsy.length)
    (hsize : t.ptsx.length < UINT_MOD) :
    transformWaypoints E vars t = done
      { vars with
        waypoint_vector_size := t.ptsx.length
        ptsx_eigen :=
          List.zipWith (fun x y => (toVehicle E.cos E.sin t.x t.y t.psi x y).1) t.ptsx t.ptsy
        ptsy_eigen :=
          List.zipWith (fun x y => (toVehicle E.cos E.sin t.x t.y t.psi x y).2) t.ptsx t.ptsy } := by
  unfold transformWaypoints
  by_cases hw : vars.waypoint_vector_size = t.ptsx.length
  · simp only [ne_eq, hw, not_true_eq_false, if_false]
    rw [transformLoop_spec E.cos E.sin t.x t.y t.psi t.ptsx t.ptsy _ _ hlen hsize
      (by rw [hvars.1, hw]) (by rw [hvars.2.1, hw]), bind_done, ← hw]
  · simp only [ne_eq, hw, not_false_eq_true, if_true]
    rw [transformLoop_spec E.cos E.sin t.x t.y t.psi t.ptsx t.ptsy _ _ hlen hsize
      (length_resize _ _ _) (length_resize _ _ _), bind_done]

/-- A completed transform phase changes only the waypoint buffers and their size,
and keeps the sizes consistent. -/
theorem transformWaypoints_inv (E : Env α μ) (vars v1 : Vars α μ) (t : Telemetry α)
    (hvars : SizesOk vars) (h : transformWaypoints E vars t = done v1) :
    ∃ w bx bY, v1 = { vars with waypoint_vector_size := w, ptsx_eigen := bx, ptsy_eigen := bY }
      ∧ bx.length = w ∧ bY.length = w := by
  unfold transformWaypoints at h
  obtain ⟨b, hb, h⟩ := bind_eq_done h
  injection h with h
  have hloop : ∀ (b0 : List α × List α) (w : Nat), b0.1.length = w → b0.2.length = w →
      forLoop t.ptsx.length (uintAdd 1)
        (fun iter_ind (b : List α × List α) =>
          (Outcome.read t.ptsx iter_ind).bind fun x =>
          (Outcome.read t.ptsy iter_ind).bind fun y =>
          (Outcome.write b.1 iter_ind (toVehicle E.cos E.sin t.x t.y t.psi x y).1).bind fun bx =>
          (Outcome.write b.2 iter_ind (toVehicle E.cos E.sin t.x t.y t.psi x y).2).bind fun bY =>
          done (bx, bY))
        (t.ptsx.length + 1) 0 b0 = done b → b.1.length = w ∧ b.2.length = w := by
    intro b0 w h1 h2 hb
    obtain ⟨_, _, hinv⟩ := forLoop_completed _ _ _ (fun _ (b : List α × List α) =>
      b.1.length = w ∧ b.2.length = w)
      (fun i s s' i' _ hinv hbody _ => by
        obtain ⟨x, _, hbody⟩ := bind_eq_done hbody
        obtain ⟨y, _, hbody⟩ := bind_eq_done hbody
        obtain ⟨bx, hbx, hbody⟩ := bind_eq_done hbody
        obtain ⟨bY, hbY, hbody⟩ := bind_eq_done hbody
        injection hbody with hbody
        subst hbody
        rw [(write_eq_done hbx).2, (write_eq_done hbY).2]
        simpa using hinv)
      _ _ _ _ ⟨h1, h2⟩ hb
    exact hinv
  by_cases hw : vars.waypoint_vector_size = t.ptsx.length
  · simp only [ne_eq, hw, not_true_eq_false, if_false] at hb h
    obtain ⟨h1, h2⟩ := hloop _ t.ptsx.length (by rw [hvars.1, hw]) (by rw [hvars.2.1, hw]) hb
    exact ⟨t.ptsx.length, b.1, b.2, h.symm, h1, h2⟩
  · simp only [ne_eq, hw, not_false_eq_true, if_true] at hb h
    obtain ⟨h1, h2⟩ := hloop _ t.ptsx.length (length_resize _ _ _) (length_resize _ _ _) hb
    exact ⟨t.ptsx.length, b.1, b.2, h.symm, h1, h2⟩

/-- What a completed `prepare` has computed. -/
theorem prepare_inv (E : Env α μ) (vars : Vars α μ) (t : Telemetry α)
    (p : Vars α μ × SolveCall α) (hvars : SizesOk vars) (h : prepare E vars t = done p) :
    ∃ v1 c0 c1 rest,
      transformWaypoints E vars t = done v1 ∧
      polyfit E.qrSolve E.garbageMat v1.ptsx_eigen v1.ptsy_eigen 3 = done (c0 :: c1 :: rest) ∧
      polyeval (c0 :: c1 :: rest) 0 = done c0 ∧
      p.2 = { state := [0, 0, 0, t.speed * (44704 / 100000), c0, -E.atan c1]
              coeffs := c0 :: c1 :: rest
              prev_delta := vars.prev_delta
              prev_accel := vars.prev_accel } ∧
      p.1 = { v1 with
              integrator_gain := vars.integrator_gain - 1 / 1000 * c0 * (100 / 1000)
              state := [0, 0, 0, t.speed * (44704 / 100000), c0, -E.atan c1] } ∧
      SizesOk v1 ∧ v1.prev_delta = vars.prev_delta ∧ v1.prev_accel = vars.prev_accel ∧
      v1.mpc = vars.mpc ∧ v1.old_coeffs = vars.old_coeffs := by
  unfold prepare at h
  obtain ⟨v1, hv1, h⟩ := bind_eq_done h
  obtain ⟨coeffs, hfit, h⟩ := bind_eq_done h
  obtain ⟨cte, hcte, h⟩ := bind_eq_done h
  obtain ⟨c1, hc1, h⟩ := bind_eq_done h
  obtain ⟨s0, hs0, h⟩ := bind_eq_done h
  obtain ⟨s1, hs1, h⟩ := bind_eq_done h
  obtain ⟨s2, hs2, h⟩ := bind_eq_done h
  obtain ⟨s3, hs3, h⟩ := bind_eq_done h
  obtain ⟨s4, hs4, h⟩ := bind_eq_done h
  obtain ⟨s5, hs5, h⟩ := bind_eq_done h
  injection h with h
  obtain ⟨w, bx, bY, hv1eq, hbx, hbY⟩ := transformWaypoints_inv E vars v1 t hvars hv1
  have hst : v1.state.length = 6 := by rw [hv1eq]; exact hvars.2.2
  have hs5' : s5 = [0, 0, 0, t.speed * (44704 / 100000), cte, -E.atan c1] := by
    rw [(write_eq_done hs5).2, (write_eq_done hs4).2, (write_eq_done hs3).2,
      (write_eq_done hs2).2, (write_eq_done hs1).2, (write_eq_done hs0).2]
    exact state_writes _ hst _ _ _ _ _ _
  have hc1' := read_eq_done.mp hc1
  match coeffs, hc1' with
  | a0 :: a1 :: rest, hc1' =>
    have ha1 : a1 = c1 := by simpa using hc1'
    have hcte' : cte = a0 := polyeval_zero a0 (a1 :: rest) cte hcte
    subst ha1 hcte' hs5'
    refine ⟨v1, cte, a1, rest, hv1, hfit, hcte, ?_, ?_, ?_, ?_, ?_, ?_, ?_⟩
    · rw [← h, hv1eq]
    · rw [← h, hv1eq]
    · rw [hv1eq]; exact ⟨hbx, hbY, hvars.2.2⟩
    · rw [hv1eq]
    · rw [hv1eq]
    · rw [hv1eq]
    · rw [hv1eq]

/-- The reference line is computed for every coefficient vector that `polyeval`
can walk through. -/
theorem referenceLine_total (coeffs : List α) (h : coeffs.length ≤ INT_MAX) :
    ∃ n, referenceLine coeffs = done n := by
  obtain ⟨_, n, hr, _⟩ := forLoop_inv 100 1 (uintAdd 1)
    (fun i (n : List α × List α) =>
      (polyeval coeffs (i : α)).bind fun y => done (n.1 ++ [(i : α)], n.2 ++ [y]))
    (fun _ _ => True)
    (fun i hi => uintAdd_of_le (by unfold UINT_MOD; omega))
    (fun i n _ _ => ⟨_, by
      show (polyeval coeffs (i : α)).bind _ = _
      rw [polyeval_eq coeffs _ h, bind_done], trivial⟩)
    101 0 ([], []) (by omega) (by omega) trivial
  exact ⟨n, hr⟩

/-- What a completed `finish` has computed. -/
theorem finish_inv (E : Env α μ) (vars : Vars α μ) (call : SolveCall α) (t : Telemetry α)
    (out : Output α μ) (h : finish E vars call t = done out) :
    ∃ sv0 sv1 rest,
      (E.Solve vars.mpc call.state call.coeffs call.prev_delta call.prev_accel).2
        = sv0 :: sv1 :: rest ∧
      out.solution_vec = sv0 :: sv1 :: rest ∧
      out.call = call ∧
      out.steering_angle = (sv0 + vars.integrator_gain) / deg2rad 25 ∧
      out.throttle = sv1 ∧
      extractTrajectory (sv0 :: sv1 :: rest) = done (out.mpc_x, out.mpc_y) ∧
      out.vars = { vars with
                   mpc := (E.Solve vars.mpc call.state call.coeffs call.prev_delta
                            call.prev_accel).1
                   prev_delta := sv0 + vars.integrator_gain
                   prev_accel := sv1
                   prev_psi := t.psi } := by
  unfold finish at h
  obtain ⟨sv0, h0, h⟩ := bind_eq_done h
  obtain ⟨sv1, h1, h⟩ := bind_eq_done h
  obtain ⟨m, hm, h⟩ := bind_eq_done h
  obtain ⟨n, _, h⟩ := bind_eq_done h
  injection h with h
  have h0' := read_eq_done.mp h0
  have h1' := read_eq_done.mp h1
  match hsol : (E.Solve vars.mpc call.state call.coeffs call.prev_delta call.prev_accel).2,
    h0', h1' with
  | a0 :: a1 :: rest, h0', h1' =>
    have e0 : a0 = sv0 := by simpa using h0'
    have e1 : a1 = sv1 := by simpa using h1'
    subst e0 e1
    rw [hsol] at hm
    refine ⟨a0, a1, rest, rfl, ?_, ?_, ?_, ?_, ?_, ?_⟩
    · rw [← h, hsol]
    · rw [← h]
    · rw [← h]
    · rw [← h]
    · rw [← h]; exact hm
    · rw [← h]

/-- A completed cycle keeps the sizes of the Eigen vectors consistent. -/
theorem onTelemetry_sizes (E : Env α μ) (vars : Vars α μ) (t : Telemetry α)
    (out : Output α μ) (hvars : SizesOk vars) (h : onTelemetry E vars t = done out) :
    SizesOk out.vars := by
  unfold onTelemetry at h
  obtain ⟨p, hp, h⟩ := bind_eq_done h
  obtain ⟨v1, c0, c1, rest, _, _, _, _, hp1, hv1, _⟩ := prepare_inv E vars t p hvars hp
  obtain ⟨_, _, _, _, _, _, _, _, _, hout⟩ := finish_inv E p.1 p.2 t out h
  rw [hout, hp1]
  exact ⟨hv1.1, hv1.2.1, rfl⟩

theorem sizesOk_init (E : Env α μ) (mpc0 : μ) : SizesOk (init E mpc0) :=
  ⟨by simp [init], by simp [init], by simp [init]⟩

/-- After every sequence of completed cycles the sizes are consistent. -/
theorem run_sizes (E : Env α μ) (hist : List (Telemetry α)) :
    ∀ vars vars', SizesOk vars → run E vars hist = done vars' → SizesOk vars' := by
  induction hist with
  | nil =>
    intro vars vars' hvars h
    injection h with h
    exact h ▸ hvars
  | cons t ts ih =>
    intro vars vars' hvars h
    unfold run at h
    obtain ⟨out, hout, h⟩ := bind_eq_done h
    exact ih out.vars vars' (onTelemetry_sizes E vars t out hvars hout) h

/-- The first part of a cycle completes on well-formed telemetry when the QR
solve returns at least two coefficients. -/
theorem prepare_total (E : Env α μ) (vars : Vars α μ) (t : Telemetry α)
    (hvars : SizesOk vars) (hlen : t.ptsx.length = t.ptsy.length)
    (h4 : 4 ≤ t.ptsx.length) (hsize : t.ptsx.length ≤ INT_MAX)
    (hq : ∀ A y, 2 ≤ (E.qrSolve A y).length ∧ (E.qrSolve A y).length ≤ INT_MAX) :
    ∃ p, prepare E vars t = done p ∧ p.2.coeffs.length ≤ INT_MAX := by
  have hI : INT_MAX < UINT_MOD := by unfold INT_MAX UINT_MOD; norm_num
  have hzx : (List.zipWith (fun x y => (toVehicle E.cos E.sin t.x t.y t.psi x y).1)
      t.ptsx t.ptsy).length = t.ptsx.length := by simp [hlen]
  have hzy : (List.zipWith (fun x y => (toVehicle E.cos E.sin t.x t.y t.psi x y).2)
      t.ptsx t.ptsy).length = t.ptsx.length := by simp [hlen]
  obtain ⟨A, _, hfit⟩ := polyfit_done E.qrSolve E.garbageMat
    (List.zipWith (fun x y => (toVehicle E.cos E.sin t.x t.y t.psi x y).1) t.ptsx t.ptsy)
    (List.zipWith (fun x y => (toVehicle E.cos E.sin t.x t.y t.psi x y).2) t.ptsx t.ptsy)
    3 (by rw [hzx, hzy]) (by omega) (by rw [hzx]; omega) (by rw [hzx]; omega)
  obtain ⟨hq2, hqmax⟩ := hq A
    (List.zipWith (fun x y => (toVehicle E.cos E.sin t.x t.y t.psi x y).2) t.ptsx t.ptsy)
  have hst : vars.state.length = 6 := hvars.2.2
  unfold prepare
  rw [transformWaypoints_spec E vars t hvars hlen (by omega), bind_done]
  simp only [Nat.cast_ofNat] at hfit
  rw [hfit, bind_done, polyeval_eq _ _ hqmax, bind_done, read_of_lt _ 1 hq2, bind_done,
    write_of_lt _ _ _ (by rw [hst]; omega), bind_done,
    write_of_lt _ _ _ (by rw [List.length_set, hst]; omega), bind_done,
    write_of_lt _ _ _ (by rw [List.length_set, List.length_set, hst]; omega), bind_done,
    write_of_lt _ _ _ (by simp only [List.length_set]; rw [hst]; omega), bind_done,
    write_of_lt _ _ _ (by simp only [List.length_set]; rw [hst]; omega), bind_done,
    write_of_lt _ _ _ (by simp only [List.length_set]; rw [hst]; omega), bind_done]
  exact ⟨_, rfl, hqmax⟩

/-- The second part of a cycle completes when `mpc.Solve` returns a vector of even
length, at least `2`, and the coefficients are ones that `polyeval` can walk through. -/
theorem finish_total (E : Env α μ) (vars : Vars α μ) (call : SolveCall α) (t : Telemetry α)
    (hc : call.coeffs.length ≤ INT_MAX)
    (hS : ∀ m st c d a, 2 ≤ (E.Solve m st c d a).2.length ∧
      (E.Solve m st c d a).2.length % 2 = 0 ∧ (E.Solve m st c d a).2.length ≤ UINT_MOD) :
    ∃ out, finish E vars call t = done out := by
  obtain ⟨hs2, hsev, hsmax⟩ :=
    hS vars.mpc call.state call.coeffs call.prev_delta call.prev_accel
  obtain ⟨mx, my, hm, _⟩ := extractTrajectory_spec _ hs2 hsev hsmax
  obtain ⟨n, hn⟩ := referenceLine_total call.coeffs hc
  unfold finish
  simp only []
  rw [read_of_lt _ 0 (by omega), bind_done, read_of_lt _ 1 (by omega), bind_done, hm,
    bind_done, hn, bind_done]
  exact ⟨_, rfl⟩

/-- A cycle on well-formed telemetry completes when the QR solve returns at least
two coefficients and `mpc.Solve` returns a vector of even length, at least `2`. -/
theorem onTelemetry_total (E : Env α μ) (vars : Vars α μ) (t : Telemetry α)
    (hvars : SizesOk vars) (hlen : t.ptsx.length = t.ptsy.length)
    (h4 : 4 ≤ t.ptsx.length) (hsize : t.ptsx.length ≤ INT_MAX)
    (hq : ∀ A y, 2 ≤ (E.qrSolve A y).length ∧ (E.qrSolve A y).length ≤ INT_MAX)
    (hS : ∀ m st c d a, 2 ≤ (E.Solve m st c d a).2.length ∧
      (E.Solve m st c d a).2.length % 2 = 0 ∧ (E.Solve m st c d a).2.length ≤ UINT_MOD) :
    ∃ out, onTelemetry E vars t = done out := by
  obtain ⟨p, hp, hc⟩ := prepare_total E vars t hvars hlen h4 hsize hq
  obtain ⟨out, hout⟩ := finish_total E p.1 p.2 t hc hS
  exact ⟨out, by unfold onTelemetry; rw [hp, bind_done, hout]⟩

/-- What a completed cycle has computed, in terms of the variables of `main`
before it. -/
theorem onTelemetry_inv (E : Env α μ) (vars : Vars α μ) (t : Telemetry α)
    (out : Output α μ) (hvars : SizesOk vars) (h : onTelemetry E vars t = done out) :
    ∃ v1 c0 c1 crest sv0 sv1 srest,
      transformWaypoints E vars t = done v1 ∧
      polyfit E.qrSolve E.garbageMat v1.ptsx_eigen v1.ptsy_eigen 3 = done (c0 :: c1 :: crest) ∧
      polyeval (c0 :: c1 :: crest) 0 = done c0 ∧
      out.call = { state := [0, 0, 0, t.speed * (44704 / 100000), c0, -E.atan c1]
                   coeffs := c0 :: c1 :: crest
                   prev_delta := vars.prev_delta
                   prev_accel := vars.prev_accel } ∧
      (E.Solve vars.mpc out.call.state out.call.coeffs out.call.prev_delta
        out.call.prev_accel).2 = sv0 :: sv1 :: srest ∧
      out.solution_vec = sv0 :: sv1 :: srest ∧
      out.steering_angle
        = (sv0 + (vars.integrator_gain - 1 / 1000 * c0 * (100 / 1000))) / deg2rad 25 ∧
      out.throttle = sv1 ∧
      extractTrajectory out.solution_vec = done (out.mpc_x, out.mpc_y) ∧
      out.vars =
        { v1 with
          integrator_gain := vars.integrator_gain - 1 / 1000 * c0 * (100 / 1000)
          state := [0, 0, 0, t.speed * (44704 / 100000), c0, -E.atan c1]
          mpc := (E.Solve vars.mpc out.call.state out.call.coeffs out.call.prev_delta
                    out.call.prev_accel).1
          prev_delta := sv0 + (vars.integrator_gain - 1 / 1000 * c0 * (100 / 1000))
          prev_accel := sv1
          prev_psi := t.psi } ∧
      v1.old_coeffs = vars.old_coeffs := by
  unfold onTelemetry at h
  obtain ⟨p, hp, h⟩ := bind_eq_done h
  obtain ⟨v1, c0, c1, crest, hv1, hfit, hcte, hcall, hp1, _, _, _, hmpc, hold⟩ :=
    prepare_inv E vars t p hvars hp
  obtain ⟨sv0, sv1, srest, hsol, hsv, hc, hsteer, hthr, hext, hout⟩ :=
    finish_inv E p.1 p.2 t out h
  have hmpc' : p.1.mpc = vars.mpc := by rw [hp1]; exact hmpc
  have hgain : p.1.integrator_gain = vars.integrator_gain - 1 / 1000 * c0 * (100 / 1000) := by
    rw [hp1]
  refine ⟨v1, c0, c1, crest, sv0, sv1, srest, hv1, hfit, hcte, ?_, ?_, hsv, ?_, hthr, ?_, ?_,
    hold⟩
  · rw [hc, hcall]
  · rw [hc, ← hmpc']; exact hsol
  · rw [hsteer, hgain]
  · rw [hsv]; exact hext
  · rw [hout, hc, ← hmpc', hp1]

end HandlerFacts


/-! ## The claims about the handler -/

section Claims

variable {α μ : Type} [LinearOrderedField α]

/-- C1: on every cycle, whatever cycles came before (the buffers start with six
entries), for waypoint sequences of equal length the transform loop completes
without an access out of range, both body-frame buffers have the length of the
input, and entry `i` is `x' = dx * cos psi + dy * sin psi`,
`y' = -dx * sin psi + dy * cos psi` with `dx = ptsx[i] - px`, `dy = ptsy[i] - py`;
these are the buffers that the cycle leaves behind.  The waypoint count is one that
the `unsigned int` loop counter holds. -/
theorem transform_every_cycle (E : Env α μ) (mpc0 : μ) (hist : List (Telemetry α))
    (vars : Vars α μ) (t : Telemetry α)
    (hrun : run E (init E mpc0) hist = done vars)
    (hlen : t.ptsx.length = t.ptsy.length) (hsize : t.ptsx.length < UINT_MOD) :
    ∃ v1, transformWaypoints E vars t = done v1 ∧
      v1.ptsx_eigen.length = t.ptsx.length ∧ v1.ptsy_eigen.length = t.ptsx.length ∧
      (∀ i, i < t.ptsx.length →
        v1.ptsx_eigen[i]? = some ((t.ptsx.getD i 0 - t.x) * E.cos t.psi
                                  + (t.ptsy.getD i 0 - t.y) * E.sin t.psi) ∧
        v1.ptsy_eigen[i]? = some (-(t.ptsx.getD i 0 - t.x) * E.sin t.psi
                                  + (t.ptsy.getD i 0 - t.y) * E.cos t.psi)) ∧
      ∀ out, onTelemetry E vars t = done out →
        out.vars.ptsx_eigen = v1.ptsx_eigen ∧ out.vars.ptsy_eigen = v1.ptsy_eigen := by
  have hvars : SizesOk vars := run_sizes E hist _ _ (sizesOk_init E mpc0) hrun
  have hspec := transformWaypoints_spec E vars t hvars hlen hsize
  refine ⟨_, hspec, by simp [hlen], by simp [hlen], ?_, ?_⟩
  · intro i hi
    have hiy : i < t.ptsy.length := by omega
    simp [List.getElem?_zipWith, List.getElem?_eq_getElem, hi, hiy, toVehicle,
      List.getD_eq_getElem]
  · intro out hout
    obtain ⟨v1, _, _, _, _, _, _, hv1, _, _, _, _, _, _, _, _, hvout, _⟩ :=
      onTelemetry_inv E vars t out hvars hout
    rw [hspec] at hv1
    injection hv1 with hv1
    rw [hvout, ← hv1]
    exact ⟨rfl, rfl⟩

/-- Witness of `transform_every_cycle`: a cycle with two waypoints after a cycle
with four. -/
theorem transform_every_cycle_witness :
    run sampleEnv (init sampleEnv ()) [sampleTelemetry] = done afterSample ∧
    twoWaypoints.ptsx.length = twoWaypoints.ptsy.length ∧
    twoWaypoints.ptsx.length < UINT_MOD ∧
    ∃ v1, transformWaypoints sampleEnv afterSample twoWaypoints = done v1 ∧
      v1.ptsx_eigen.length = twoWaypoints.ptsx.length ∧
      v1.ptsy_eigen.length = twoWaypoints.ptsx.length ∧
      (∀ i, i < twoWaypoints.ptsx.length →
        v1.ptsx_eigen[i]? = some ((twoWaypoints.ptsx.getD i 0 - twoWaypoints.x)
                                    * sampleEnv.cos twoWaypoints.psi
                                  + (twoWaypoints.ptsy.getD i 0 - twoWaypoints.y)
                                    * sampleEnv.sin twoWaypoints.psi) ∧
        v1.ptsy_eigen[i]? = some (-(twoWaypoints.ptsx.getD i 0 - twoWaypoints.x)
                                    * sampleEnv.sin twoWaypoints.psi
                                  + (twoWaypoints.ptsy.getD i 0 - twoWaypoints.y)
                                    * sampleEnv.cos twoWaypoints.psi)) ∧
      ∀ out, onTelemetry sampleEnv afterSample twoWaypoints = done out →
        out.vars.ptsx_eigen = v1.ptsx_eigen ∧ out.vars.ptsy_eigen = v1.ptsy_eigen :=
  ⟨by decide!, by decide, by decide,
    transform_every_cycle sampleEnv () [sampleTelemetry] afterSample twoWaypoints
      (by decide!) (by decide) (by decide)⟩

/-- C3: the state vector handed to `mpc.Solve` is `[0, 0, 0, v, cte, epsi]` with
`v = speed * 0.44704`, `cte = polyeval(coeffs, 0) = coeffs[0]` and
`epsi = -atan(coeffs[1])`, where `coeffs` is the fit of this cycle; the cycle goes on
by calling `mpc.Solve` with exactly these arguments. -/
theorem solve_state_vector (E : Env α μ) (mpc0 : μ) (hist : List (Telemetry α))
    (vars : Vars α μ) (t : Telemetry α) (p : Vars α μ × SolveCall α)
    (hrun : run E (init E mpc0) hist = done vars)
    (hp : prepare E vars t = done p) :
    ∃ c0 c1 rest,
      polyfit E.qrSolve E.garbageMat p.1.ptsx_eigen p.1.ptsy_eigen 3 = done p.2.coeffs ∧
      p.2.coeffs = c0 :: c1 :: rest ∧
      polyeval p.2.coeffs 0 = done c0 ∧
      p.2.state = [0, 0, 0, t.speed * (44704 / 100000), c0, -E.atan c1] ∧
      onTelemetry E vars t = finish E p.1 p.2 t ∧
      ∀ out, onTelemetry E vars t = done out →
        out.call = p.2 ∧
        out.solution_vec
          = (E.Solve vars.mpc p.2.state p.2.coeffs p.2.prev_delta p.2.prev_accel).2 := by
  have hvars : SizesOk vars := run_sizes E hist _ _ (sizesOk_init E mpc0) hrun
  obtain ⟨v1, c0, c1, rest, _, hfit, hcte, hcall, hp1, _, _, _, hmpc, _⟩ :=
    prepare_inv E vars t p hvars hp
  have hfin : onTelemetry E vars t = finish E p.1 p.2 t := by
    unfold onTelemetry; rw [hp, bind_done]
  refine ⟨c0, c1, rest, ?_, by rw [hcall], by rw [hcall]; exact hcte, by rw [hcall], hfin, ?_⟩
  · rw [hp1, hcall]; exact hfit
  · intro out hout
    rw [hfin] at hout
    obtain ⟨sv0, sv1, srest, hsol, hsv, hc, _⟩ := finish_inv E p.1 p.2 t out hout
    have hmpc' : p.1.mpc = vars.mpc := by rw [hp1]; exact hmpc
    rw [hmpc'] at hsol
    exact ⟨hc, by rw [hsv, hsol]⟩

/-- Witness of `solve_state_vector`: the first cycle of the sample run. -/
theorem solve_state_vector_witness :
    run sampleEnv (init sampleEnv ()) [] = done (init sampleEnv ()) ∧
    prepare sampleEnv (init sampleEnv ()) sampleTelemetry = done samplePrepared ∧
    ∃ c0 c1 rest,
      polyfit sampleEnv.qrSolve sampleEnv.garbageMat samplePrepared.1.ptsx_eigen
        samplePrepared.1.ptsy_eigen 3 = done samplePrepared.2.coeffs ∧
      samplePrepared.2.coeffs = c0 :: c1 :: rest ∧
      polyeval samplePrepared.2.coeffs 0 = done c0 ∧
      samplePrepared.2.state
        = [0, 0, 0, sampleTelemetry.speed * (44704 / 100000), c0, -sampleEnv.atan c1] ∧
      onTelemetry sampleEnv (init sampleEnv ()) sampleTelemetry
        = finish sampleEnv samplePrepared.1 samplePrepared.2 sampleTelemetry ∧
      ∀ out, onTelemetry sampleEnv (init sampleEnv ()) sampleTelemetry = done out →
        out.call = samplePrepared.2 ∧
        out.solution_vec
          = (sampleEnv.Solve (init sampleEnv ()).mpc samplePrepared.2.state
              samplePrepared.2.coeffs samplePrepared.2.prev_delta
              samplePrepared.2.prev_accel).2 :=
  ⟨rfl, by decide!,
    solve_state_vector sampleEnv () [] (init sampleEnv ()) sampleTelemetry samplePrepared
      rfl (by decide!)⟩

/-- C4, evaluated on the first cycle of the sample run: `mpc.Solve` returns the
steering `deg2rad 25` and the acceleration `1`, both within their bounds, the
integrator term `1 / 10000` is added to the steering, and the message carries a
`steering_angle` above `1`. -/
theorem steering_angle_exceeds_one :
    ∃ out, onTelemetry sampleEnv (init sampleEnv ()) sampleTelemetry = done out ∧
      out.solution_vec = [deg2rad 25, 1, 1, -1, 2, -1] ∧
      out.vars.integrator_gain = 1 / 10000 ∧
      out.steering_angle = (deg2rad 25 + 1 / 10000) / deg2rad 25 ∧
      1 < out.steering_angle ∧ out.throttle = 1 :=
  ⟨_, by with_unfolding_all rfl, by decide!, by decide!, by decide!, by decide!, by decide!⟩

theorem deg2rad_pos : (0 : α) < deg2rad 25 := by
  unfold deg2rad pi M_PI
  positivity

/-- C5: the first cycle calls `mpc.Solve` with previous steering `0` and previous
acceleration `0`; a cycle that follows another one calls it with the command that
the earlier cycle sent: `prev_delta = deg2rad 25 * steering_angle` and
`prev_accel = throttle`, where the steering is the solver output plus the integrator
term, not the solver output alone. -/
theorem previous_command_is_applied (E : Env α μ) (mpc0 : μ) (hist : List (Telemetry α))
    (vars : Vars α μ) (t0 t1 t2 : Telemetry α) (out0 out1 out2 : Output α μ)
    (hrun : run E (init E mpc0) hist = done vars)
    (h0 : onTelemetry E (init E mpc0) t0 = done out0)
    (h1 : onTelemetry E vars t1 = done out1)
    (h2 : onTelemetry E out1.vars t2 = done out2) :
    out0.call.prev_delta = 0 ∧ out0.call.prev_accel = 0 ∧
    out2.call.prev_delta = deg2rad 25 * out1.steering_angle ∧
    out2.call.prev_accel = out1.throttle ∧
    ∃ sv0 sv1 rest, out1.solution_vec = sv0 :: sv1 :: rest ∧
      out2.call.prev_delta = sv0 + out1.vars.integrator_gain := by
  have hvars : SizesOk vars := run_sizes E hist _ _ (sizesOk_init E mpc0) hrun
  have hvars1 : SizesOk out1.vars := onTelemetry_sizes E vars t1 out1 hvars h1
  obtain ⟨_, _, _, _, _, _, _, _, _, _, hcall0, _, _, _, _, _, _, _⟩ :=
    onTelemetry_inv E (init E mpc0) t0 out0 (sizesOk_init E mpc0) h0
  obtain ⟨_, _, _, _, sv0, sv1, srest, _, _, _, _, _, hsv1, hsteer1, hthr1, _, hv1, _⟩ :=
    onTelemetry_inv E vars t1 out1 hvars h1
  obtain ⟨_, _, _, _, _, _, _, _, _, _, hcall2, _, _, _, _, _, _, _⟩ :=
    onTelemetry_inv E out1.vars t2 out2 hvars1 h2
  have hd : (deg2rad 25 : α) ≠ 0 := ne_of_gt deg2rad_pos
  refine ⟨by rw [hcall0]; rfl, by rw [hcall0]; rfl, ?_, ?_, sv0, sv1, srest, hsv1, ?_⟩
  · rw [hcall2, hsteer1, hv1]
    field_simp
    ring
  · rw [hcall2, hthr1, hv1]
  · rw [hcall2, hv1]

theorem sampleEnv_qrSolve_length (A : MatrixXd ℚ) (y : List ℚ) :
    2 ≤ (sampleEnv.qrSolve A y).length ∧ (sampleEnv.qrSolve A y).length ≤ INT_MAX := by
  show 2 ≤ 4 ∧ 4 ≤ INT_MAX
  decide

theorem sampleEnv_Solve_length (m : Unit) (st c : List ℚ) (d a : ℚ) :
    2 ≤ (sampleEnv.Solve m st c d a).2.length ∧
      (sampleEnv.Solve m st c d a).2.length % 2 = 0 ∧
      (sampleEnv.Solve m st c d a).2.length ≤ UINT_MOD := by
  show 2 ≤ 6 ∧ 6 % 2 = 0 ∧ 6 ≤ UINT_MOD
  decide

/-- Witness of `previous_command_is_applied`: two cycles of the sample run. -/
theorem previous_command_is_applied_witness :
    ∃ out1 out2,
      run sampleEnv (init sampleEnv ()) [] = done (init sampleEnv ()) ∧
      onTelemetry sampleEnv (init sampleEnv ()) sampleTelemetry = done out1 ∧
      onTelemetry sampleEnv out1.vars sampleTelemetry = done out2 ∧
      out1.call.prev_delta = 0 ∧ out1.call.prev_accel = 0 ∧
      out2.call.prev_delta = deg2rad 25 * out1.steering_angle ∧
      out2.call.prev_accel = out1.throttle ∧
      ∃ sv0 sv1 rest, out1.solution_vec = sv0 :: sv1 :: rest ∧
        out2.call.prev_delta = sv0 + out1.vars.integrator_gain := by
  obtain ⟨out1, h1⟩ := onTelemetry_total sampleEnv (init sampleEnv ()) sampleTelemetry
    (sizesOk_init _ _) (by decide) (by decide) (by decide)
    sampleEnv_qrSolve_length sampleEnv_Solve_length
  obtain ⟨out2, h2⟩ := onTelemetry_total sampleEnv out1.vars sampleTelemetry
    (onTelemetry_sizes _ _ _ _ (sizesOk_init _ _) h1) (by decide) (by decide) (by decide)
    sampleEnv_qrSolve_length sampleEnv_Solve_length
  exact ⟨out1, out2, rfl, h1, h2,
    previous_command_is_applied sampleEnv () [] (init sampleEnv ()) sampleTelemetry
      sampleTelemetry sampleTelemetry out1 out1 out2 rfl h1 h1 h2⟩

/-- C6, refuted: for the abscissas `0, 0, 0, 0` the design matrix has three zero
columns, and there is no QR solve for which `polyfit` fails to return
coefficients. -/
theorem singular_fit_returns :
    (∃ A, designMatrix (fun _ _ => (0 : ℚ)) [0, 0, 0, 0] 3 = done A ∧
      ∀ j, j < 4 → A.coef j 1 = 0 ∧ A.coef j 2 = 0 ∧ A.coef j 3 = 0) ∧
    ¬ ∃ qrSolve : MatrixXd ℚ → List ℚ → List ℚ,
      ∀ r, polyfit qrSolve (fun _ _ => 0) [0, 0, 0, 0] [1, 2, 3, 4] 3 ≠ done r := by
  constructor
  · obtain ⟨A, hA, _, _, hpow⟩ := designMatrix_spec (fun _ _ => (0 : ℚ)) [0, 0, 0, 0] 3
      (by decide) (by decide)
    refine ⟨A, hA, fun j hj => ?_⟩
    have hj' : j < [(0 : ℚ), 0, 0, 0].length := hj
    rw [hpow j hj' 1 (by omega), hpow j hj' 2 (by omega), hpow j hj' 3 (by omega)]
    interval_cases j <;> simp
  · rintro ⟨q, hq⟩
    obtain ⟨A, _, h⟩ := polyfit_done q (fun _ _ => (0 : ℚ)) [0, 0, 0, 0] [1, 2, 3, 4] 3 rfl
      (by decide) (by decide) (by decide)
    exact hq _ h

/-- C6, amended: `polyfit` fails only through its assertions, which abort the
program: with sequences of different lengths or fewer than four points no
coefficients are returned, and a cycle with fewer than four waypoints is aborted
before `cte`, `epsi` and the call of `mpc.Solve`.  With at least four points the fit
returns what the QR solve returns for the design matrix, singular or not.  A
completed cycle has at least four waypoints, uses the coefficients fitted in that
same cycle for `cte`, `epsi` and `mpc.Solve`, and leaves `old_coeffs` as it was. -/
theorem fit_fails_by_assertion_only (E : Env α μ) (mpc0 : μ) (hist : List (Telemetry α))
    (vars : Vars α μ) (t : Telemetry α) (xvals yvals : List α)
    (hrun : run E (init E mpc0) hist = done vars)
    (hlen : t.ptsx.length = t.ptsy.length) (hsize : t.ptsx.length ≤ INT_MAX) :
    ((xvals.length ≠ yvals.length ∨ xvals.length < 4) →
      polyfit E.qrSolve E.garbageMat xvals yvals 3 = aborted) ∧
    (xvals.length = yvals.length → 4 ≤ xvals.length → xvals.length ≤ INT_MAX →
      ∃ A, designMatrix E.garbageMat xvals 3 = done A ∧
        polyfit E.qrSolve E.garbageMat xvals yvals 3 = done (E.qrSolve A yvals)) ∧
    (t.ptsx.length < 4 → onTelemetry E vars t = aborted) ∧
    (∀ out, onTelemetry E vars t = done out →
      4 ≤ t.ptsx.length ∧
      polyfit E.qrSolve E.garbageMat out.vars.ptsx_eigen out.vars.ptsy_eigen 3
        = done out.call.coeffs ∧
      (∃ c0 c1 rest, out.call.coeffs = c0 :: c1 :: rest ∧
        polyeval out.call.coeffs 0 = done c0 ∧
        out.call.state = [0, 0, 0, t.speed * (44704 / 100000), c0, -E.atan c1]) ∧
      out.vars.old_coeffs = vars.old_coeffs) := by
  have hvars : SizesOk vars := run_sizes E hist _ _ (sizesOk_init E mpc0) hrun
  have hI : INT_MAX < UINT_MOD := by unfold INT_MAX UINT_MOD; norm_num
  have hspec := transformWaypoints_spec E vars t hvars hlen (by omega)
  have habort : t.ptsx.length < 4 → onTelemetry E vars t = aborted := by
    intro h3
    unfold onTelemetry prepare
    rw [hspec, bind_done]
    have := polyfit_aborted E.qrSolve E.garbageMat
      (List.zipWith (fun x y => (toVehicle E.cos E.sin t.x t.y t.psi x y).1) t.ptsx t.ptsy)
      (List.zipWith (fun x y => (toVehicle E.cos E.sin t.x t.y t.psi x y).2) t.ptsx t.ptsy)
      3 (Or.inr (Or.inr (by simp [hlen]; omega)))
    simp only [Nat.cast_ofNat] at this
    rw [this]
    rfl
  refine ⟨fun h => ?_, fun h1 h2 h3 => ?_, habort, fun out hout => ?_⟩
  · have := polyfit_aborted E.qrSolve E.garbageMat xvals yvals 3
      (h.elim Or.inl fun h => Or.inr (Or.inr (by omega)))
    simpa using this
  · have := polyfit_done E.qrSolve E.garbageMat xvals yvals 3 h1 (by omega) (by omega) h3
    simpa using this
  · obtain ⟨v1, c0, c1, rest, _, _, _, hv1, hfit, hcte, hcall, _, _, _, _, _, hvout, hold⟩ :=
      onTelemetry_inv E vars t out hvars hout
    refine ⟨?_, ?_, ⟨c0, c1, rest, by rw [hcall], by rw [hcall]; exact hcte, by rw [hcall]⟩, ?_⟩
    · by_contra h4
      rw [habort (by omega)] at hout
      cases hout
    · rw [hvout, hcall]; exact hfit
    · rw [hvout]; exact hold

/-- Witness of `fit_fails_by_assertion_only`: a cycle with three waypoints, and
the fit of four points with equal abscissas. -/
theorem fit_fails_by_assertion_only_witness :
    run sampleEnv (init sampleEnv ()) [sampleTelemetry] = done afterSample ∧
    threeWaypoints.ptsx.length = threeWaypoints.ptsy.length ∧
    threeWaypoints.ptsx.length ≤ INT_MAX ∧
    onTelemetry sampleEnv afterSample threeWaypoints = aborted ∧
    ∃ A, designMatrix sampleEnv.garbageMat [0, 0, 0, 0] 3 = done A ∧
      polyfit sampleEnv.qrSolve sampleEnv.garbageMat [0, 0, 0, 0] [1, 2, 3, 4] 3
        = done (sampleEnv.qrSolve A [1, 2, 3, 4]) :=
  have h := fit_fails_by_assertion_only sampleEnv () [sampleTelemetry] afterSample
    threeWaypoints [0, 0, 0, 0] [1, 2, 3, 4] (by decide!) (by decide) (by decide)
  ⟨by decide!, by decide, by decide, h.2.2.1 (by decide),
    h.2.1 (by decide) (by decide) (by decide)⟩

/-- C7, evaluated on a message whose last `}]` comes before its first `[`: the
length `b2 - b1 + 2` wraps around and `hasData` returns `[abc`, which is not empty
and does not end with `}]`. -/
theorem hasData_closing_before_opening :
    hasData "42\x7d]x[abc".toList = done "[abc".toList := by decide

/-- C9: the waypoint transform is a rigid motion: it keeps the Euclidean distance
of any two points, sends the position of the car to the origin, and is inverted by
`x = px + x' * cos psi - y' * sin psi`, `y = py + x' * sin psi + y' * cos psi`. -/
theorem toVehicle_rigid_motion (px py psi x1 y1 x2 y2 : ℝ) :
    Real.sqrt (((toVehicle Real.cos Real.sin px py psi x1 y1).1
                  - (toVehicle Real.cos Real.sin px py psi x2 y2).1) ^ 2
               + ((toVehicle Real.cos Real.sin px py psi x1 y1).2
                  - (toVehicle Real.cos Real.sin px py psi x2 y2).2) ^ 2)
      = Real.sqrt ((x1 - x2) ^ 2 + (y1 - y2) ^ 2) ∧
    toVehicle Real.cos Real.sin px py psi px py = (0, 0) ∧
    px + (toVehicle Real.cos Real.sin px py psi x1 y1).1 * Real.cos psi
       - (toVehicle Real.cos Real.sin px py psi x1 y1).2 * Real.sin psi = x1 ∧
    py + (toVehicle Real.cos Real.sin px py psi x1 y1).1 * Real.sin psi
       + (toVehicle Real.cos Real.sin px py psi x1 y1).2 * Real.cos psi = y1 := by
  have h := Real.sin_sq_add_cos_sq psi
  refine ⟨?_, ?_, ?_, ?_⟩
  · congr 1
    simp only [toVehicle]
    linear_combination ((x1 - x2) ^ 2 + (y1 - y2) ^ 2) * h
  · simp [toVehicle]
  · simp only [toVehicle]
    linear_combination (x1 - px) * h
  · simp only [toVehicle]
    linear_combination (y1 - py) * h

/-- C10, refuted: on a solution vector of length `3` the loop runs once and reads
index `3`, outside the vector. -/
theorem extract_odd_length_out_of_range :
    extractTrajectory [(5 : ℚ), 6, 7] = undefined ∧
    Outcome.read [(5 : ℚ), 6, 7] ((2 + 0 + 1) % UINT_MOD) = undefined := by decide

/-- C10, amended: for a solution vector of even length `n` with `2 ≤ n ≤ 2 ^ 32`
the extraction loop reads only indices below `n`, completes, and yields `mpc_x` and
`mpc_y` of length `(n - 2) / 2` with point `k` equal to
`(solution_vec[2 + 2k], solution_vec[3 + 2k])`. -/
theorem extract_even_length {β : Type} (solution_vec : List β)
    (h2 : 2 ≤ solution_vec.length) (heven : solution_vec.length % 2 = 0)
    (hsize : solution_vec.length ≤ UINT_MOD) :
    ∃ mpc_x mpc_y, extractTrajectory solution_vec = done (mpc_x, mpc_y) ∧
      mpc_x.length = (solution_vec.length - 2) / 2 ∧
      mpc_y.length = (solution_vec.length - 2) / 2 ∧
      ∀ k, k < (solution_vec.length - 2) / 2 →
        mpc_x[k]? = solution_vec[2 + 2 * k]? ∧ mpc_y[k]? = solution_vec[3 + 2 * k]? ∧
        2 + 2 * k < solution_vec.length ∧ 3 + 2 * k < solution_vec.length := by
  obtain ⟨mx, my, h, hl1, hl2, hpts⟩ := extractTrajectory_spec solution_vec h2 heven hsize
  exact ⟨mx, my, h, hl1, hl2, fun k hk => ⟨(hpts k hk).1, (hpts k hk).2, by omega, by omega⟩⟩

/-- Witness of `extract_even_length`: a solution vector with two predicted points. -/
theorem extract_even_length_witness :
    2 ≤ [(5 : ℚ), 6, 7, 8, 9, 10].length ∧ [(5 : ℚ), 6, 7, 8, 9, 10].length % 2 = 0 ∧
    [(5 : ℚ), 6, 7, 8, 9, 10].length ≤ UINT_MOD ∧
    extractTrajectory [(5 : ℚ), 6, 7, 8, 9, 10] = done ([7, 9], [8, 10]) ∧
    ∃ mpc_x mpc_y, extractTrajectory [(5 : ℚ), 6, 7, 8, 9, 10] = done (mpc_x, mpc_y) ∧
      mpc_x.length = ([(5 : ℚ), 6, 7, 8, 9, 10].length - 2) / 2 ∧
      mpc_y.length = ([(5 : ℚ), 6, 7, 8, 9, 10].length - 2) / 2 ∧
      ∀ k, k < ([(5 : ℚ), 6, 7, 8, 9, 10].length - 2) / 2 →
        mpc_x[k]? = [(5 : ℚ), 6, 7, 8, 9, 10][2 + 2 * k]? ∧
        mpc_y[k]? = [(5 : ℚ), 6, 7, 8, 9, 10][3 + 2 * k]? ∧
        2 + 2 * k < [(5 : ℚ), 6, 7, 8, 9, 10].length ∧
        3 + 2 * k < [(5 : ℚ), 6, 7, 8, 9, 10].length :=
  ⟨by decide, by decide, by decide, by decide,
    extract_even_length [(5 : ℚ), 6, 7, 8, 9, 10] (by decide) (by decide) (by decide)⟩

end Claims

end MPCProject
